import Mathlib

/-!
Shallow embedding of the geometry-projection pipeline of `lib/cartopy/crs.py`
(`Projection.project_geometry` and its helpers), together with proofs about
it.  Coordinates are embedded as exact rationals; the external collaborators
(the `cartopy.trace` clipper, the shapely predicates `is_valid`, `is_ccw`,
`contains`, `crosses`, `buffer(0)`, `difference`, `intersection`, and the
arc-length projection `boundary.project`) are parameters of the embedded
functions.
-/

namespace Cartopy

/-- Coordinate pair `(x, y)`. -/
abbrev Point := ℚ × ℚ

/-- Open line string: an ordered coordinate sequence (`LineString.coords`). -/
abbrev Frag := List Point

/-- Ring coordinates (`LinearRing.coords` without any closure convention). -/
abbrev Ring := List Point

/-- Model of `coords[0]`. -/
def firstC (l : List Point) : Point := l.headD (0, 0)

/-- Model of `coords[-1]`. -/
def lastC (l : List Point) : Point := l.getLastD (0, 0)

/-- Model of `np.allclose(p, q, atol=atol)` on two coordinates, with numpy's
default relative tolerance `rtol = 1e-5`: componentwise
`|p - q| <= atol + rtol * |q|`. -/
def allclose (atol : ℚ) (p q : Point) : Bool :=
  decide (|p.1 - q.1| ≤ atol + |q.1| / 100000) &&
  decide (|p.2 - q.2| ≤ atol + |q.2| / 100000)

/-- Model of `threshold = max(np.abs(self.x_limits + self.y_limits)) * 1e-5`
(`+` on the two pairs is tuple concatenation). -/
def thresholdOf (xlims ylims : ℚ × ℚ) : ℚ :=
  max (max |xlims.1| |xlims.2|) (max |ylims.1| |ylims.2|) / 100000

/-- Inner scan of the fusion loop in `_project_linear_ring` step 2: the least
`j` with `i != j` and
`np.allclose(line_strings[i].coords[0], line_strings[j].coords[-1], atol=tol)`. -/
def findJ (tol : ℚ) (ls : List Frag) (i : Nat) : Option Nat :=
  (List.range ls.length).find?
    (fun j => (j != i) && allclose tol (firstC (ls.getD i [])) (lastC (ls.getD j [])))

/-- One fusion step of `_project_linear_ring` step 2:
`combo = line_strings[j].coords + line_strings[i].coords[1:]`, then
`del line_strings[max i j], line_strings[min i j]` followed by
`line_strings.append(combo)`. -/
def fuseOnce (ls : List Frag) (i j : Nat) : List Frag :=
  ((ls.eraseIdx (max i j)).eraseIdx (min i j)) ++
    [ls.getD j [] ++ (ls.getD i []).drop 1]

/-- The fragment-fusion loop of `_project_linear_ring` step 2.  `i` is the
outer index; the inner `j` scan is `findJ`.  On a fusion the outer index
becomes `min i j` (the source swaps `i, j = j, i` when `j < i` before the two
deletions) and the scan restarts there; otherwise `i` advances. -/
def fuseLoop (tol : ℚ) (ls : List Frag) (i : Nat) : List Frag :=
  if hi : i < ls.length then
    match hj : findJ tol ls i with
    | some j => fuseLoop tol (fuseOnce ls i j) (min i j)
    | none => fuseLoop tol ls (i + 1)
  else ls
termination_by (ls.length, ls.length - i)
decreasing_by
  · apply Prod.Lex.left
    have hmem := List.mem_of_find?_eq_some hj
    have hp := List.find?_some hj
    rw [List.mem_range] at hmem
    rw [Bool.and_eq_true, bne_iff_ne] at hp
    have hb : max i j < ls.length := by omega
    have h1 : (ls.eraseIdx (max i j)).length = ls.length - 1 := by
      rw [List.length_eraseIdx]
      simp [hb]
    have ha : min i j < ls.length - 1 := by
      have := hp.1
      omega
    have h2 : ((ls.eraseIdx (max i j)).eraseIdx (min i j)).length
        = ls.length - 1 - 1 := by
      rw [List.length_eraseIdx, h1]
      simp [ha]
    simp only [fuseOnce, List.length_append, h2, List.length_singleton]
    omega
  · have : ls.length - (i + 1) < ls.length - i := by omega
    exact Prod.Lex.right ls.length this

/-- Step 3 of `_project_linear_ring`: each line with more than 3 coordinates
whose first and last coordinates satisfy `np.allclose(..., atol=tol)` becomes
a ring `LinearRing(line.coords[:-1])`; the rest stay line strings.  Returns
`(rings, line_strings)`. -/
def splitRings (tol : ℚ) : List Frag → List Frag × List Frag
  | [] => ([], [])
  | l :: rest =>
    let r := splitRings tol rest
    if 3 < l.length ∧ allclose tol (firstC l) (lastC l) = true then
      (l.dropLast :: r.1, r.2)
    else
      (r.1, l :: r.2)

/-- `_project_linear_ring`, parameterized by the clipper's output
`multi_line_string` (given as the list of its component line strings): the
fusion loop runs only when there is more than one segment, then self-closed
fragments are promoted to rings. -/
def projectLinearRing (tol : ℚ) (clipped : List Frag) : List Frag × List Frag :=
  let fused := if 1 < clipped.length then fuseLoop tol clipped 0 else clipped
  splitRings tol fused

/-- The `multi_lines` accumulation of `_project_polygon`: the per-ring
`MultiLineString` results that are non-empty (`if len(p_mline) > 0`). -/
def polygonMultiLines (results : List (List Frag × List Frag)) : List (List Frag) :=
  (results.map Prod.snd).filter (fun m => !m.isEmpty)

/-- Whether `_project_polygon` invokes `_attach_lines_to_boundary`
(`if multi_lines:`). -/
def stitcherInvoked (results : List (List Frag × List Frag)) : Bool :=
  !(polygonMultiLines results).isEmpty

/-- Payload of a `_BoundaryPoint`: either a boundary `Point` (for
`kind = True` events) or the namedtuple `(i, 'first'/'last', coord)` of a
fragment endpoint (for `kind = False` events). -/
inductive EvData where
  | pt (p : Point)
  | seg (id : Nat) (isFirst : Bool) (p : Point)
deriving DecidableEq

/-- Model of `_BoundaryPoint(distance, kind, data)`. -/
structure Event where
  distance : ℚ
  kind : Bool
  data : EvData
deriving DecidableEq

/-- The sort key ordering of `edge_things.sort(key=lambda t: (t.distance,
t.kind))`: lexicographic order on `(distance, kind)` with `False < True`. -/
def eventLE (a b : Event) : Bool :=
  decide (a.distance < b.distance) ||
    (decide (a.distance = b.distance) && (!a.kind || b.kind))

/-- The two endpoint events recorded per enumerated line string: a
`kind = False` event for `coords[0]` tagged `'first'` and one for
`coords[-1]` tagged `'last'`, at their `boundary_distance`. -/
def endpointEvents (bd : Point → ℚ) (lineStrings : List Frag) : List Event :=
  (lineStrings.enum).flatMap (fun p =>
    [⟨bd (firstC p.2), false, .seg p.1 true (firstC p.2)⟩,
     ⟨bd (lastC p.2), false, .seg p.1 false (lastC p.2)⟩])

/-- One `kind = True` event per boundary vertex, for `boundary.coords[:-1]`. -/
def vertexEvents (bd : Point → ℚ) (boundaryCoords : List Point) : List Event :=
  boundaryCoords.dropLast.map (fun p => ⟨bd p, true, .pt p⟩)

/-- All accumulated `edge_things` before sorting: the fragment endpoint
events followed by the boundary vertex events. -/
def buildEvents (bd : Point → ℚ) (lineStrings : List Frag)
    (boundaryCoords : List Point) : List Event :=
  endpointEvents bd lineStrings ++ vertexEvents bd boundaryCoords

/-- The sort step `edge_things.sort(key=lambda thing: (thing.distance,
thing.kind))` (a stable sort, as Python's is). -/
def sortEvents (evs : List Event) : List Event := evs.mergeSort eventLE

/-- Whether two event payloads carry the same fragment id
(`edge_thing.data[0] == prev_thing.data[0]` on endpoint events). -/
def sameSegId : EvData → EvData → Bool
  | .seg i _ _, .seg j _ _ => i == j
  | _, _ => false

/-- The same-fragment-adjacency pass: walking the sorted list with a `prev`
tracker, whenever two adjacent events are both `kind = False` and carry the
same fragment id, an artificial `kind = True` event at the midpoint
arc-length (coordinate `boundary.interpolate(mid_dist)`) is inserted between
them and the tracker resets to `None`. -/
def insertMids (interp : ℚ → Point) : Option Event → List Event → List Event
  | _, [] => []
  | none, e :: rest => e :: insertMids interp (some e) rest
  | some p, e :: rest =>
    if !e.kind && !p.kind && sameSegId e.data p.data then
      ⟨(e.distance + p.distance) / 2, true,
        .pt (interp ((e.distance + p.distance) / 2))⟩ ::
        e :: insertMids interp none rest
    else
      e :: insertMids interp (some e) rest

/-- The reachable-target filter `filter_last`: keep `kind = True` events and
endpoint events tagged `'first'`. -/
def filter_last (t : Event) : Bool :=
  t.kind || (match t.data with | .seg _ isF _ => isF | .pt _ => false)

/-- Coordinate payload used when a vertex event is appended to the path
(`next_thing.data` is a `Point` for `kind = True` events). -/
def evPt (e : Event) : Point :=
  match e.data with
  | .pt p => p
  | .seg _ _ p => p

/-- Fragment id accessed as `next_thing.data[0]` on `kind = False` events. -/
def evId (e : Event) : Nat :=
  match e.data with
  | .seg i _ _ => i
  | .pt _ => 0

/-- Model of `_find_first_ge(a, x)`: the first element whose distance is at
least `x`, wrapping to `a[0]` when none is (and `none` only on an empty
list, where the source's `a[0]` raises `IndexError`). -/
def findFirstGe (a : List Event) (x : ℚ) : Option Event :=
  match a.find? (fun v => decide (x ≤ v.distance)) with
  | some v => some v
  | none => a.head?

/-- Position of the event `_find_first_ge` returns (the removal
`edge_things.remove(next_thing)` is by object identity, hence positional). -/
def findFirstGeIdx (a : List Event) (x : ℚ) : Nat :=
  let k := a.findIdx (fun v => decide (x ≤ v.distance))
  if k < a.length then k else 0

/-- Outcome of the traversal loops of `_attach_lines_to_boundary`:
the completed paths, or the `RuntimeError` raised when a line string is
re-added within one path (`inconsistency`, carrying the offending id and the
`added_linestring` set at that moment), or the `IndexError` that `a[0]`
in `_find_first_ge` would raise on an empty searchable list (`exhausted`). -/
inductive StitchOutcome where
  | ok (paths : List Frag)
  | inconsistency (j : Nat) (added : List Nat)
  | exhausted
deriving DecidableEq

/-- The traversal of `_attach_lines_to_boundary`: the outer
`while remaining_ls` loop (state `st = none`, `popitem()` takes the last
entry of the insertion-ordered dict) and the inner `while True` loop (state
`st = some (origin, current_ls, added_linestring)`).  Each inner iteration
finds the first remaining event at distance at least that of the path's last
coordinate and removes it; a vertex event is appended to the path, the
origin's own endpoint event closes the path, and another fragment's endpoint
event appends that fragment (popping it from `remaining_ls` and failing if
its id was already in `added_linestring`). -/
def attachLoop (ls : List Frag) (bd : Point → ℚ) (edges : List Event)
    (rem : List (Nat × Frag)) (st : Option (Nat × Frag × List Nat))
    (acc : List Frag) : StitchOutcome :=
  match st with
  | none =>
    match hrem : rem.getLast? with
    | none => .ok acc
    | some (origin, cur) =>
      attachLoop ls bd edges rem.dropLast (some (origin, cur, [])) acc
  | some (origin, cur, added) =>
    match edges with
    | [] => .exhausted
    | e :: es =>
      let k := findFirstGeIdx (e :: es) (bd (lastC cur))
      let ev := (e :: es).getD k e
      let edges2 := (e :: es).eraseIdx k
      if ev.kind then
        attachLoop ls bd edges2 rem (some (origin, cur ++ [evPt ev], added)) acc
      else if evId ev = origin then
        attachLoop ls bd edges2 rem none (acc ++ [cur])
      else
        let j := evId ev
        let rem2 := rem.filter (fun p => p.1 != j)
        let cur2 := cur ++ ls.getD j []
        if j ∈ added then .inconsistency j added
        else attachLoop ls bd edges2 rem2 (some (origin, cur2, j :: added)) acc
termination_by (rem.length, edges.length, st.elim 0 (fun _ => 1))
decreasing_by
  · have h : rem ≠ [] := by
      intro hnil
      rw [hnil] at hrem
      simp at hrem
    have : rem.dropLast.length < rem.length := by
      rw [List.length_dropLast]
      have : 0 < rem.length := List.length_pos.mpr h
      omega
    exact Prod.Lex.left _ _ this
  · have hk : findFirstGeIdx (e :: es) (bd (lastC cur)) < (e :: es).length := by
      simp only [findFirstGeIdx]
      split
      · assumption
      · simp
    have : ((e :: es).eraseIdx (findFirstGeIdx (e :: es) (bd (lastC cur)))).length
        < (e :: es).length := by
      rw [List.length_eraseIdx]
      simp only [hk, if_true]
      omega
    exact Prod.Lex.right _ (Prod.Lex.left _ _ this)
  · have hk : findFirstGeIdx (e :: es) (bd (lastC cur)) < (e :: es).length := by
      simp only [findFirstGeIdx]
      split
      · assumption
      · simp
    have : ((e :: es).eraseIdx (findFirstGeIdx (e :: es) (bd (lastC cur)))).length
        < (e :: es).length := by
      rw [List.length_eraseIdx]
      simp only [hk, if_true]
      omega
    exact Prod.Lex.right _ (Prod.Lex.left _ _ this)
  · have hk : findFirstGeIdx (e :: es) (bd (lastC cur)) < (e :: es).length := by
      simp only [findFirstGeIdx]
      split
      · assumption
      · simp
    have hlt : ((e :: es).eraseIdx (findFirstGeIdx (e :: es) (bd (lastC cur)))).length
        < (e :: es).length := by
      rw [List.length_eraseIdx]
      simp only [hk, if_true]
      omega
    have hle := List.length_filter_le (fun p => p.1 != evId ((e :: es).getD
      (findFirstGeIdx (e :: es) (bd (lastC cur))) e)) rem
    rcases Nat.lt_or_ge (rem.filter (fun p => p.1 != evId ((e :: es).getD
        (findFirstGeIdx (e :: es) (bd (lastC cur))) e))).length rem.length with h | h
    · exact Prod.Lex.left _ _ h
    · have heq : (rem.filter (fun p => p.1 != evId ((e :: es).getD
          (findFirstGeIdx (e :: es) (bd (lastC cur))) e))).length = rem.length := by
        omega
      rw [heq]
      exact Prod.Lex.right _ (Prod.Lex.left _ _ hlt)

/-- Model of `makes_valid_ring`: a 3-coordinate path is kept only when its
first and last coordinates differ (and it `is_valid`); otherwise more than 3
coordinates (and `is_valid`) are required. -/
def makes_valid_ring (isValid : Frag → Bool) (l : Frag) : Bool :=
  if l.length = 3 then decide (firstC l ≠ lastC l) && isValid l
  else decide (3 < l.length) && isValid l

/-- Model of shapely's `LinearRing(line_string)` constructor on coordinates:
the coordinate sequence, closed by repeating the first coordinate when it is
not already closed. -/
def toLinearRing (l : Frag) : Frag :=
  if firstC l = lastC l then l else l ++ [firstC l]

/-- The final filter of `_attach_lines_to_boundary`:
`[LinearRing(ls) for ls in processed_ls if makes_valid_ring(ls)]`. -/
def stitchRings (isValid : Frag → Bool) (processed : List Frag) : List Frag :=
  (processed.filter (makes_valid_ring isValid)).map toLinearRing

/-- Number of distinct coordinates of a coordinate sequence. -/
def distinctCount (l : Frag) : Nat := l.dedup.length

/-- The whole of `_attach_lines_to_boundary`: squash the multi-line-strings,
build and sort the events, insert artificial midpoints, filter to reachable
targets, traverse (`remaining_ls = dict(enumerate(line_strings))`), and keep
the valid rings. -/
def attachLinesToBoundary (bd : Point → ℚ) (interp : ℚ → Point)
    (isValid : Frag → Bool) (boundaryCoords : List Point)
    (multiLineStrings : List (List Frag)) : StitchOutcome :=
  let lineStrings := multiLineStrings.flatten
  let edges := (insertMids interp none
    (sortEvents (buildEvents bd lineStrings boundaryCoords))).filter filter_last
  match attachLoop lineStrings bd edges lineStrings.enum none [] with
  | .ok processed => .ok (stitchRings isValid processed)
  | r => r

/-- Shapely polygon: an exterior ring and its interior (hole) rings. -/
structure Poly where
  exterior : Ring
  holes : List Ring
deriving DecidableEq

/-- Doubled signed (shoelace) area of a ring's coordinates, traversed as a
closed loop. -/
def doubledSignedArea (r : Ring) : ℚ :=
  match r with
  | [] => 0
  | p :: _ =>
    (r.zip (r.drop 1 ++ [p])).foldl
      (fun a q => a + (q.1.1 * q.2.2 - q.2.1 * q.1.2)) 0

/-- Shapely's `LinearRing.is_ccw`: positive signed area. -/
def isCcwArea (r : Ring) : Bool := decide (0 < doubledSignedArea r)

/-- External shapely operations consumed by `_rings_to_multi_polygon`, kept
abstract: `is_ccw`, the prepared-polygon `contains`, `crosses`, `buffer(0)`
(`none` when the result is empty or invalid), `box.difference(polygon)`, the
domain polygon `self.domain`, and `domain.intersection(polygon)` (`none` when
the intersection is empty). -/
structure GeoOps where
  is_ccw : Ring → Bool
  containsPrep : Ring → Ring → Bool
  crossesPoly : Ring → Ring → Bool
  buffer0 : Ring → Option Poly
  differenceBox : Ring → Poly → Poly
  domain : Poly
  intersectionDomain : Poly → Option Poly

/-- The rings classified as interior (hole) candidates:
`ring.is_ccw != is_ccw`. -/
def interiorCandidates (ops : GeoOps) (rings : List Ring) (isCcw : Bool) :
    List Ring :=
  rings.filter (fun r => ops.is_ccw r != isCcw)

/-- The rings classified as exterior candidates (the `else` branch). -/
def exteriorCandidates (ops : GeoOps) (rings : List Ring) (isCcw : Bool) :
    List Ring :=
  rings.filter (fun r => !(ops.is_ccw r != isCcw))

/-- The hole-assignment loop of `_rings_to_multi_polygon`: for each exterior
ring in order, every still-unassigned interior ring that the exterior's
prepared polygon `contains` — or, failing that, that the polygon `crosses` —
is claimed as a hole and removed from the pool.  Returns the per-exterior
`(exterior, holes)` pairs and the left-over interior rings. -/
def assignHoles (ops : GeoOps) :
    List Ring → List Ring → List (Ring × List Ring) × List Ring
  | [], ints => ([], ints)
  | e :: es, ints =>
    let claimed := ints.filter (fun h => ops.containsPrep e h || ops.crossesPoly e h)
    let rest := ints.filter (fun h => !(ops.containsPrep e h || ops.crossesPoly e h))
    let r := assignHoles ops es rest
    ((e, claimed) :: r.1, r.2)

/-- Smallest value of a list of rationals (`0` junk default on `[]`). -/
def minD : List ℚ → ℚ
  | [] => 0
  | x :: xs => xs.foldl min x

/-- Largest value of a list of rationals (`0` junk default on `[]`). -/
def maxD : List ℚ → ℚ
  | [] => 0
  | x :: xs => xs.foldl max x

/-- Shapely `geometry.bounds`, `(minx, miny, maxx, maxy)`, computed from all
coordinates of the polygon. -/
def polyBounds (p : Poly) : ℚ × ℚ × ℚ × ℚ :=
  let pts := p.exterior ++ p.holes.flatten
  (minD (pts.map Prod.fst), minD (pts.map Prod.snd),
   maxD (pts.map Prod.fst), maxD (pts.map Prod.snd))

/-- Shapely `box(minx, miny, maxx, maxy)` exterior coordinates
(counter-clockwise, starting at `(maxx, miny)`). -/
def mkBox (x1 y1 x2 y2 : ℚ) : Ring :=
  [(x2, y1), (x2, y2), (x1, y2), (x1, y1), (x2, y1)]

/-- One iteration of the orphan-inversion loop of `_rings_to_multi_polygon`:
repair the ring with `buffer(0)` (skip it when empty or invalid), pad its
bounds by 10% per side, combine with the already 10%-padded domain bounds
`(x3, y3, x4, y4)` into a box, subtract the repaired polygon from the box,
and intersect with the domain; `none` when nothing is appended. -/
def invertOrphan (ops : GeoOps) (x3 y3 x4 y4 : ℚ) (ring : Ring) : Option Poly :=
  match ops.buffer0 ring with
  | none => none
  | some poly =>
    let b := polyBounds poly
    let x1 := b.1
    let y1 := b.2.1
    let x2 := b.2.2.1
    let y2 := b.2.2.2
    let bx := (x2 - x1) / 10
    let by2 := (y2 - y1) / 10
    let box := mkBox (min (x1 - bx) x3) (min (y1 - by2) y3)
      (max (x2 + bx) x4) (max (y2 + by2) y4)
    ops.intersectionDomain (ops.differenceBox box poly)

/-- Model of `_rings_to_multi_polygon`: classify rings by orientation against
`is_ccw`, let exterior rings slurp up the interior rings they contain (or
cross), then invert each left-over interior ring against the domain; the
parts are returned in order (exterior polygons first, inverted orphan parts
after).  An empty collection is the empty multi-polygon `[]`. -/
def ringsToMultiPolygon (ops : GeoOps) (rings : List Ring) (isCcw : Bool) :
    List Poly :=
  let asg := assignHoles ops (exteriorCandidates ops rings isCcw)
    (interiorCandidates ops rings isCcw)
  let bits := asg.1.map (fun p => Poly.mk p.1 p.2)
  let db := polyBounds ops.domain
  let x3 := db.1
  let y3 := db.2.1
  let x4 := db.2.2.1
  let y4 := db.2.2.2
  let bx := (x4 - x3) / 10
  let by2 := (y4 - y3) / 10
  bits ++ asg.2.filterMap
    (invertOrphan ops (x3 - bx) (y3 - by2) (x4 + bx) (y4 + by2))

/-- Result of `_project_multiline`: a `MultiLineString` when any member
projected to something non-empty, and the plain Python list `[]` otherwise
(the source's `return []`). -/
inductive MultiLineResult where
  | mls (lines : List Frag)
  | emptyList
deriving DecidableEq

/-- Model of `_project_multipoint`: every member is transformed and appended
unconditionally (`sgeom.MultiPoint(geoms)`; the empty input yields
`sgeom.MultiPoint()`, the empty collection). -/
def project_multipoint (projPoint : Point → Point) (pts : List Point) :
    List Point :=
  pts.map projPoint

/-- Model of `_project_multiline`, parameterized by the per-member projection
(the component lines of the member's projected `MultiLineString`): non-empty
results are concatenated; when every member projects to empty the source
returns the Python list `[]`, not a `MultiLineString`. -/
def project_multiline (projLine : Frag → List Frag) (lines : List Frag) :
    MultiLineResult :=
  let geoms := (lines.map projLine).flatten
  if geoms.isEmpty then .emptyList else .mls geoms

/-- Model of `_project_multipolygon`: non-empty per-member results are
concatenated into a `MultiPolygon`; an all-empty result is
`sgeom.MultiPolygon()`, the empty collection. -/
def project_multipolygon (projPoly : Poly → List Poly) (polys : List Poly) :
    List Poly :=
  (polys.map projPoly).flatten

/-- Geometry kinds dispatched on `geometry.geom_type`; `other` covers every
unrecognized kind string. -/
inductive GeomKind where
  | point
  | lineString
  | linearRing
  | polygon
  | multiPoint
  | multiLineString
  | multiPolygon
  | other (name : String)
deriving DecidableEq

/-- The handler names of `Projection._method_map`. -/
inductive ProjMethod where
  | projectPoint
  | projectLineString
  | projectLinearRingM
  | projectPolygonM
  | projectMultipoint
  | projectMultiline
  | projectMultipolygon
deriving DecidableEq

/-- Model of the `_method_map` dict lookup (`None` for unknown kinds). -/
def methodMap : GeomKind → Option ProjMethod
  | .point => some .projectPoint
  | .lineString => some .projectLineString
  | .linearRing => some .projectLinearRingM
  | .polygon => some .projectPolygonM
  | .multiPoint => some .projectMultipoint
  | .multiLineString => some .projectMultiline
  | .multiPolygon => some .projectMultipolygon
  | .other _ => none

/-- A supplied `src_crs` argument, abstracted to whether it is an
`isinstance(src_crs, CRS)`. -/
structure SrcArg where
  isCRS : Bool
deriving DecidableEq

/-- The source CRS actually used by the projection methods. -/
inductive UsedSrc where
  | geodeticOfTarget
  | given (v : SrcArg)
deriving DecidableEq

/-- The errors `project_geometry` can raise: the `TypeError` for a non-CRS
source and the `ValueError` for an unsupported geometry type. -/
inductive PGError where
  | invalidSourceCRS
  | unsupportedGeometryType (kind : GeomKind)
deriving DecidableEq

/-- Model of `project_geometry`'s argument handling and dispatch: a `None`
source defaults to `self.as_geodetic()`; a supplied non-CRS value raises
`TypeError` before the geometry is even inspected; an unrecognized
`geom_type` raises `ValueError`; otherwise the mapped handler is invoked
with the resolved source CRS. -/
def project_geometry (srcArg : Option SrcArg) (kind : GeomKind) :
    Except PGError (UsedSrc × ProjMethod) :=
  match srcArg with
  | none =>
    match methodMap kind with
    | some m => .ok (.geodeticOfTarget, m)
    | none => .error (.unsupportedGeometryType kind)
  | some v =>
    if v.isCRS then
      match methodMap kind with
      | some m => .ok (.given v, m)
      | none => .error (.unsupportedGeometryType kind)
    else .error .invalidSourceCRS

/-- No fusable ordered pair remains: no two distinct surviving fragments have
the first's first coordinate within tolerance of the second's last
coordinate. -/
def noFusablePair (tol : ℚ) (r : List Frag) : Prop :=
  ∀ k m, k < r.length → m < r.length → k ≠ m →
    allclose tol (firstC (r.getD k [])) (lastC (r.getD m [])) = false

/-- An event list still holds a `kind = False` endpoint event of fragment
`j`. -/
def HasEndpointEvent (edges : List Event) (j : Nat) : Prop :=
  ∃ ev ∈ edges, ev.kind = false ∧ evId ev = j ∧ (∃ t p, ev.data = .seg j t p)

/-- Junk default event for positional accessors in statements. -/
def dfltEv : Event := ⟨0, false, .pt (0, 0)⟩

/-- Trivial collaborator instance used for concrete instantiations. -/
def trivOps : GeoOps where
  is_ccw := fun _ => true
  containsPrep := fun _ _ => true
  crossesPoly := fun _ _ => false
  buffer0 := fun _ => none
  differenceBox := fun _ p => p
  domain := ⟨[], []⟩
  intersectionDomain := fun p => some p

/-- Collaborator instance for the orientation counterexample: `is_ccw` is
shapely's signed-area test, `buffer(0)` repairs the orphan ring into a
counter-clockwise triangle, and the external `box.difference` overlay
returns a polygon whose shell happens to be clockwise — nothing in
`_rings_to_multi_polygon` forbids or corrects that — while the domain
intersection returns its argument unchanged. -/
def cexOps : GeoOps where
  is_ccw := isCcwArea
  containsPrep := fun _ _ => false
  crossesPoly := fun _ _ => false
  buffer0 := fun _ => some ⟨[(4, 4), (5, 4), (4, 5)], []⟩
  differenceBox := fun _ _ =>
    ⟨[(1, 1), (1, 12), (12, 12), (12, 1)], [[(4, 4), (5, 4), (4, 5)]]⟩
  domain := ⟨[(1, 1), (10, 1), (10, 10), (1, 10)], []⟩
  intersectionDomain := fun p => some p

theorem findJ_spec {tol : ℚ} {ls : List Frag} {i j : Nat}
    (h : findJ tol ls i = some j) :
    j < ls.length ∧ j ≠ i ∧
      allclose tol (firstC (ls.getD i [])) (lastC (ls.getD j [])) = true := by
  have hmem := List.mem_of_find?_eq_some h
  have hp := List.find?_some h
  rw [List.mem_range] at hmem
  rw [Bool.and_eq_true, bne_iff_ne] at hp
  exact ⟨hmem, hp.1, hp.2⟩

theorem splitRings_snd_subset (tol : ℚ) :
    ∀ ls : List Frag, (splitRings tol ls).2 ⊆ ls := by
  intro ls
  induction ls with
  | nil => simp [splitRings]
  | cons a rest ih =>
    simp only [splitRings]
    split
    · exact fun x hx => List.mem_cons_of_mem a (ih hx)
    · intro x hx
      rcases List.mem_cons.mp hx with rfl | hx2
      · exact List.mem_cons_self _ _
      · exact List.mem_cons_of_mem a (ih hx2)

theorem assignHoles_fst (ops : GeoOps) :
    ∀ (exts ints : List Ring), ((assignHoles ops exts ints).1.map Prod.fst) = exts := by
  intro exts
  induction exts with
  | nil => intro ints; simp [assignHoles]
  | cons e es ih => intro ints; simp [assignHoles, ih]

theorem assignHoles_length (ops : GeoOps) (exts ints : List Ring) :
    (assignHoles ops exts ints).1.length = exts.length := by
  have h := congrArg List.length (assignHoles_fst ops exts ints)
  simpa using h

theorem assignHoles_pairs (ops : GeoOps) :
    ∀ (exts ints : List Ring) (pr : Ring × List Ring),
      pr ∈ (assignHoles ops exts ints).1 → pr.1 ∈ exts ∧ pr.2 ⊆ ints := by
  intro exts
  induction exts with
  | nil => intro ints pr hpr; simp [assignHoles] at hpr
  | cons e es ih =>
    intro ints pr hpr
    simp only [assignHoles] at hpr
    rcases List.mem_cons.mp hpr with rfl | hpr2
    · exact ⟨List.mem_cons_self _ _, fun x hx => (List.mem_filter.mp hx).1⟩
    · obtain ⟨h1, h2⟩ := ih _ pr hpr2
      exact ⟨List.mem_cons_of_mem e h1,
        fun x hx => (List.mem_filter.mp (h2 hx)).1⟩

theorem assignHoles_leftover (ops : GeoOps) :
    ∀ (exts ints : List Ring), (assignHoles ops exts ints).2 ⊆ ints := by
  intro exts
  induction exts with
  | nil => intro ints; simp [assignHoles]
  | cons e es ih =>
    intro ints x hx
    simp only [assignHoles] at hx
    exact (List.mem_filter.mp (ih _ hx)).1

theorem eventLE_trans (a b c : Event) (h1 : eventLE a b = true)
    (h2 : eventLE b c = true) : eventLE a c = true := by
  simp only [eventLE, Bool.or_eq_true, Bool.and_eq_true, decide_eq_true_eq] at *
  rcases h1 with h1 | ⟨h1e, h1k⟩
  · rcases h2 with h2 | ⟨h2e, _⟩
    · exact Or.inl (lt_trans h1 h2)
    · exact Or.inl (h2e ▸ h1)
  · rcases h2 with h2 | ⟨h2e, h2k⟩
    · exact Or.inl (h1e ▸ h2)
    · refine Or.inr ⟨h1e.trans h2e, ?_⟩
      cases ha : a.kind <;> cases hb : b.kind <;> cases hc : c.kind <;>
        simp_all

theorem eventLE_total (a b : Event) : (eventLE a b || eventLE b a) = true := by
  simp only [eventLE, Bool.or_eq_true, Bool.and_eq_true, decide_eq_true_eq]
  rcases lt_trichotomy a.distance b.distance with h | h | h
  · exact Or.inl (Or.inl h)
  · cases ha : a.kind <;> cases hb : b.kind
    · exact Or.inl (Or.inr ⟨h, by simp [ha, hb]⟩)
    · exact Or.inl (Or.inr ⟨h, by simp [ha, hb]⟩)
    · exact Or.inr (Or.inr ⟨h.symm, by simp [ha, hb]⟩)
    · exact Or.inl (Or.inr ⟨h, by simp [ha, hb]⟩)
  · exact Or.inr (Or.inl h)

theorem mem_eraseIdx_of_ne {α : Type} {l : List α} {a : α} {k : Nat}
    (ha : a ∈ l) (hne : ∀ hk : k < l.length, a ≠ l[k]) : a ∈ l.eraseIdx k := by
  induction l generalizing k with
  | nil => simp at ha
  | cons x xs ih =>
    cases k with
    | zero =>
      rcases List.mem_cons.mp ha with rfl | h2
      · exact absurd rfl (hne (by simp))
      · simpa [List.eraseIdx] using h2
    | succ k2 =>
      rcases List.mem_cons.mp ha with rfl | h2
      · simp [List.eraseIdx]
      · simp only [List.eraseIdx]
        refine List.mem_cons_of_mem x (ih h2 ?_)
        intro hk
        exact hne (by simpa using Nat.succ_lt_succ hk)

/-- Claim C9: `project_geometry` defaults an omitted source CRS to the
geodetic counterpart of the target, raises the `TypeError` for a supplied
non-CRS source before dispatching on the geometry at all, dispatches the
seven supported kinds to their handlers, and raises the `ValueError` exactly
for every other kind. -/
theorem c9_dispatch :
    (∀ (kind : GeomKind) (m : ProjMethod), methodMap kind = some m →
      project_geometry none kind = .ok (.geodeticOfTarget, m)) ∧
    (∀ (v : SrcArg) (kind : GeomKind), v.isCRS = false →
      project_geometry (some v) kind = .error .invalidSourceCRS) ∧
    (∀ (v : SrcArg) (kind : GeomKind), v.isCRS = true → methodMap kind = none →
      project_geometry (some v) kind = .error (.unsupportedGeometryType kind)) ∧
    (∀ kind : GeomKind, methodMap kind = none →
      project_geometry none kind = .error (.unsupportedGeometryType kind)) ∧
    (∀ (v : SrcArg) (kind : GeomKind) (m : ProjMethod), v.isCRS = true →
      methodMap kind = some m →
      project_geometry (some v) kind = .ok (.given v, m)) ∧
    (∀ kind : GeomKind, methodMap kind = none ↔ ∃ s, kind = .other s) := by
  refine ⟨?_, ?_, ?_, ?_, ?_, ?_⟩
  · intro kind m h; simp [project_geometry, h]
  · intro v kind h; simp [project_geometry, h]
  · intro v kind h hm; simp [project_geometry, h, hm]
  · intro kind hm; simp [project_geometry, hm]
  · intro v kind m h hm; simp [project_geometry, h, hm]
  · intro kind
    cases kind <;> simp [methodMap]

theorem c9_dispatch_witness :
    project_geometry none .point = .ok (.geodeticOfTarget, .projectPoint) ∧
    project_geometry (some ⟨false⟩) .polygon = .error .invalidSourceCRS ∧
    project_geometry (some ⟨true⟩) (.other "GeometryCollection") =
      .error (.unsupportedGeometryType (.other "GeometryCollection")) := by
  exact ⟨c9_dispatch.1 .point .projectPoint rfl,
    c9_dispatch.2.1 ⟨false⟩ .polygon rfl,
    c9_dispatch.2.2.1 ⟨true⟩ (.other "GeometryCollection") rfl rfl⟩

/-- Claim C8 (evaluation of the divergent branch): when every member of a
`MultiLineString` projects to empty, `_project_multiline` returns the plain
Python list `[]` (`MultiLineResult.emptyList`), not an empty
`MultiLineString`, unlike its `MultiPoint` and `MultiPolygon` siblings. -/
theorem c8_multiline_empty_eval :
    project_multiline (fun _ => ([] : List Frag)) [[((0 : ℚ), (0 : ℚ)), (1, 1)]]
      = .emptyList ∧
    project_multipoint (fun p => p) ([] : List Point) = [] ∧
    project_multipolygon (fun _ => ([] : List Poly)) [⟨[], []⟩] = [] := by
  exact ⟨rfl, rfl, rfl⟩

theorem sortEvents_pairs (evs : List Event) (i j : Nat) (hij : i < j)
    (hj : j < (sortEvents evs).length) :
    eventLE ((sortEvents evs).getD i dfltEv) ((sortEvents evs).getD j dfltEv)
      = true := by
  have hp := @List.sorted_mergeSort Event eventLE eventLE_trans eventLE_total evs
  rw [List.pairwise_iff_getElem] at hp
  have hi : i < (sortEvents evs).length := lt_trans hij hj
  rw [List.getD_eq_getElem _ _ hi, List.getD_eq_getElem _ _ hj]
  exact hp i j hi hj hij

/-- Claim C4: after the sort step of `_attach_lines_to_boundary`, the event
list is ordered by arc-length distance ascending, and at equal distance
every fragment endpoint event (`kind = False`) precedes every boundary
vertex event (`kind = True`): a vertex event is never followed by an
endpoint event at the same distance. -/
theorem c4_sort_order (bd : Point → ℚ) (lineStrings : List Frag)
    (boundaryCoords : List Point) (i j : Nat) (hij : i < j)
    (hj : j < (sortEvents (buildEvents bd lineStrings boundaryCoords)).length) :
    ((sortEvents (buildEvents bd lineStrings boundaryCoords)).getD i dfltEv).distance
      ≤ ((sortEvents (buildEvents bd lineStrings boundaryCoords)).getD j dfltEv).distance ∧
    (((sortEvents (buildEvents bd lineStrings boundaryCoords)).getD i dfltEv).distance
        = ((sortEvents (buildEvents bd lineStrings boundaryCoords)).getD j dfltEv).distance →
      ((sortEvents (buildEvents bd lineStrings boundaryCoords)).getD i dfltEv).kind = true →
      ((sortEvents (buildEvents bd lineStrings boundaryCoords)).getD j dfltEv).kind = true) := by
  have h := sortEvents_pairs (buildEvents bd lineStrings boundaryCoords) i j hij hj
  simp only [eventLE, Bool.or_eq_true, Bool.and_eq_true, decide_eq_true_eq] at h
  rcases h with h | ⟨he, hk⟩
  · exact ⟨le_of_lt h, fun heq _ => absurd heq (ne_of_lt h)⟩
  · refine ⟨le_of_eq he, fun _ hki => ?_⟩
    rcases hk with h1 | h1
    · rw [hki] at h1
      simp at h1
    · exact h1

theorem c4_sort_order_witness :
    ((sortEvents (buildEvents (fun _ => (0 : ℚ)) [[((0 : ℚ), 0), (1, 1)]] [])).getD 0
        dfltEv).distance
      ≤ ((sortEvents (buildEvents (fun _ => (0 : ℚ)) [[((0 : ℚ), 0), (1, 1)]] [])).getD 1
        dfltEv).distance := by
  have hlen : (sortEvents (buildEvents (fun _ => (0 : ℚ)) [[((0 : ℚ), 0), (1, 1)]] [])).length
      = 2 := by
    have h := (List.mergeSort_perm
      (buildEvents (fun _ => (0 : ℚ)) [[((0 : ℚ), 0), (1, 1)]] []) eventLE).length_eq
    rw [sortEvents, h]
    decide
  exact (c4_sort_order (fun _ => (0 : ℚ)) [[((0 : ℚ), 0), (1, 1)]] [] 0 1 (by decide)
    (by rw [hlen]; decide)).1

/-- Claim C1 (amended): every path emitted by the ring-validation step is
closed once shapely's `LinearRing` constructor closes it, a path of exactly
3 coordinates with equal first and last coordinates is never emitted, and a
finished path qualifies exactly when it passes the `is_valid` predicate and
either has exactly 3 coordinates with distinct endpoints or has more than 3
coordinates — coordinate distinctness beyond the endpoint comparison, and
simplicity beyond `is_valid`, are not checked. -/
theorem c1_ring_validation (isValid : Frag → Bool) (processed : List Frag) :
    (∀ r ∈ stitchRings isValid processed, firstC r = lastC r) ∧
    (∀ l : Frag, l.length = 3 → firstC l = lastC l →
      makes_valid_ring isValid l = false) ∧
    (∀ l : Frag, makes_valid_ring isValid l = true ↔
      (isValid l = true ∧ ((l.length = 3 ∧ firstC l ≠ lastC l) ∨ 3 < l.length))) := by
  refine ⟨?_, ?_, ?_⟩
  · intro r hr
    simp only [stitchRings, List.mem_map] at hr
    obtain ⟨l, _, rfl⟩ := hr
    by_cases h : firstC l = lastC l
    · simp [toLinearRing, h]
    · simp only [toLinearRing, if_neg h]
      cases l with
      | nil => exact absurd rfl h
      | cons a l2 =>
        have h1 : firstC ((a :: l2) ++ [firstC (a :: l2)]) = firstC (a :: l2) := rfl
        have h2 : lastC ((a :: l2) ++ [firstC (a :: l2)]) = firstC (a :: l2) := by
          rw [lastC, List.getLastD_concat]
        rw [h1, h2]
  · intro l h3 heq
    unfold makes_valid_ring
    rw [if_pos h3, heq]
    simp
  · intro l
    unfold makes_valid_ring
    by_cases h3 : l.length = 3
    · rw [if_pos h3, Bool.and_eq_true, decide_eq_true_eq]
      constructor
      · rintro ⟨hne, hv⟩
        exact ⟨hv, Or.inl ⟨h3, hne⟩⟩
      · rintro ⟨hv, h | h⟩
        · exact ⟨h.2, hv⟩
        · omega
    · rw [if_neg h3, Bool.and_eq_true, decide_eq_true_eq]
      constructor
      · rintro ⟨hlt, hv⟩
        exact ⟨hv, Or.inr hlt⟩
      · rintro ⟨hv, h | h⟩
        · exact absurd h.1 h3
        · exact ⟨h, hv⟩

theorem c1_ring_validation_witness :
    (∀ r ∈ stitchRings (fun _ => true) [[((0 : ℚ), 0), (2, 0), (2, 2), (0, 2), (0, 0)]],
      firstC r = lastC r) ∧
    makes_valid_ring (fun _ => true) [((0 : ℚ), 0), (1, 1), (0, 0)] = false := by
  constructor
  · exact (c1_ring_validation (fun _ => true)
      [[((0 : ℚ), 0), (2, 0), (2, 2), (0, 2), (0, 0)]]).1
  · exact (c1_ring_validation (fun _ => true) []).2.1
      [((0 : ℚ), 0), (1, 1), (0, 0)] (by decide) (by decide)

/-- Claim C1 counterexample: the finished 3-coordinate open path
`[(0,0), (1,0), (0,1)]` passes `makes_valid_ring` (its endpoints differ and
it is valid) and is emitted as the closed triangle
`[(0,0), (1,0), (0,1), (0,0)]`, which has only 3 distinct coordinates —
refuting "at least 4 distinct coordinates". -/
theorem c1_counterexample :
    stitchRings (fun _ => true) [[((0 : ℚ), 0), (1, 0), (0, 1)]]
      = [[(0, 0), (1, 0), (0, 1), (0, 0)]] ∧
    distinctCount [((0 : ℚ), 0), (1, 0), (0, 1), (0, 0)] = 3 := by
  constructor
  · decide
  · decide

theorem thresholdOf_nonneg (xl yl : ℚ × ℚ) : 0 ≤ thresholdOf xl yl := by
  have h : (0 : ℚ) ≤ max (max |xl.1| |xl.2|) (max |yl.1| |yl.2|) :=
    le_trans (abs_nonneg xl.1) (le_trans (le_max_left _ _) (le_max_left _ _))
  exact div_nonneg h (by norm_num)

theorem allclose_refl (t : ℚ) (ht : 0 ≤ t) (p : Point) :
    allclose t p p = true := by
  simp only [allclose, Bool.and_eq_true, decide_eq_true_eq, sub_self, abs_zero]
  constructor
  · exact add_nonneg ht (div_nonneg (abs_nonneg _) (by norm_num))
  · exact add_nonneg ht (div_nonneg (abs_nonneg _) (by norm_num))

/-- Claim C3: in `_project_linear_ring`, every fragment with more than 3
coordinates whose first and last coordinates are within tolerance is
promoted to a closed ring with the duplicated closing coordinate dropped and
is removed from the remaining line strings; and when every ring of a polygon
projects with no left-over line strings, `_project_polygon` never invokes
`_attach_lines_to_boundary`. -/
theorem c3_self_closing (xlims ylims : ℚ × ℚ) (l : Frag) (ls : List Frag)
    (clipped : List (List Frag)) :
    (l ∈ ls → 3 < l.length →
      allclose (thresholdOf xlims ylims) (firstC l) (lastC l) = true →
      l.dropLast ∈ (splitRings (thresholdOf xlims ylims) ls).1 ∧
        l ∉ (splitRings (thresholdOf xlims ylims) ls).2) ∧
    ((∀ c ∈ clipped, (projectLinearRing (thresholdOf xlims ylims) c).2 = []) →
      stitcherInvoked (clipped.map (projectLinearRing (thresholdOf xlims ylims))) = false) := by
  constructor
  · induction ls with
    | nil =>
      intro hmem
      exact absurd hmem (List.not_mem_nil l)
    | cons a rest ih =>
      intro hmem hlen hcl
      rcases List.mem_cons.mp hmem with rfl | hmem2
      · have hc : 3 < l.length ∧
            allclose (thresholdOf xlims ylims) (firstC l) (lastC l) = true :=
          ⟨hlen, hcl⟩
        simp only [splitRings, if_pos hc]
        refine ⟨List.mem_cons_self _ _, ?_⟩
        intro hcon
        have hsub := splitRings_snd_subset (thresholdOf xlims ylims) rest hcon
        exact (ih hsub hlen hcl).2 hcon
      · have h2 := ih hmem2 hlen hcl
        simp only [splitRings]
        split
        · exact ⟨List.mem_cons_of_mem _ h2.1, h2.2⟩
        · rename_i hcond
          refine ⟨h2.1, ?_⟩
          intro hcon
          rcases List.mem_cons.mp hcon with rfl | h3
          · exact hcond ⟨hlen, hcl⟩
          · exact h2.2 h3
  · intro h
    have hfil : (List.map Prod.snd
        (List.map (projectLinearRing (thresholdOf xlims ylims)) clipped)).filter
          (fun m => !m.isEmpty) = [] := by
      rw [List.filter_eq_nil_iff]
      intro m hm
      rw [List.map_map] at hm
      obtain ⟨c, hc, rfl⟩ := List.mem_map.mp hm
      simp only [Function.comp_apply]
      rw [h c hc]
      decide
    unfold stitcherInvoked polygonMultiLines
    rw [hfil]
    rfl

theorem c3_self_closing_witness :
    ([((0 : ℚ), 0), (1, 0), (1, 1), (0, 0)].dropLast ∈
      (splitRings (thresholdOf ((1 : ℚ), 1) ((1 : ℚ), 1))
        [[((0 : ℚ), 0), (1, 0), (1, 1), (0, 0)]]).1 ∧
     [((0 : ℚ), 0), (1, 0), (1, 1), (0, 0)] ∉
      (splitRings (thresholdOf ((1 : ℚ), 1) ((1 : ℚ), 1))
        [[((0 : ℚ), 0), (1, 0), (1, 1), (0, 0)]]).2) ∧
    stitcherInvoked ([[[((0 : ℚ), 0), (1, 0), (1, 1), (0, 0)]]].map
      (projectLinearRing (thresholdOf ((1 : ℚ), 1) ((1 : ℚ), 1)))) = false := by
  have hcl : allclose (thresholdOf ((1 : ℚ), 1) ((1 : ℚ), 1))
      (firstC [((0 : ℚ), 0), (1, 0), (1, 1), (0, 0)])
      (lastC [((0 : ℚ), 0), (1, 0), (1, 1), (0, 0)]) = true := by
    rw [show firstC [((0 : ℚ), 0), (1, 0), (1, 1), (0, 0)] = ((0 : ℚ), 0) from rfl,
      show lastC [((0 : ℚ), 0), (1, 0), (1, 1), (0, 0)] = ((0 : ℚ), 0) from by decide]
    exact allclose_refl _ (thresholdOf_nonneg _ _) _
  constructor
  · exact (c3_self_closing ((1 : ℚ), 1) ((1 : ℚ), 1)
      [((0 : ℚ), 0), (1, 0), (1, 1), (0, 0)]
      [[((0 : ℚ), 0), (1, 0), (1, 1), (0, 0)]] []).1 (by decide) (by decide) hcl
  · refine (c3_self_closing ((1 : ℚ), 1) ((1 : ℚ), 1) [] []
      [[[((0 : ℚ), 0), (1, 0), (1, 1), (0, 0)]]]).2 ?_
    intro c hc
    rw [show c = [[((0 : ℚ), 0), (1, 0), (1, 1), (0, 0)]] from by
      simpa using hc]
    show (splitRings _ [[((0 : ℚ), 0), (1, 0), (1, 1), (0, 0)]]).2 = []
    rw [splitRings, if_pos ⟨by decide, hcl⟩]
    rfl

theorem assignHoles_spec (ops : GeoOps) (h : Ring) :
    ∀ (exts ints : List Ring), h ∈ ints →
      (h ∈ (assignHoles ops exts ints).2 ↔
        ∀ e ∈ exts, (ops.containsPrep e h || ops.crossesPoly e h) = false) ∧
      (∀ k, k < exts.length →
        (h ∈ ((assignHoles ops exts ints).1.getD k ([], [])).2 ↔
          ((ops.containsPrep (exts.getD k []) h ||
              ops.crossesPoly (exts.getD k []) h) = true ∧
            ∀ k2, k2 < k → (ops.containsPrep (exts.getD k2 []) h ||
              ops.crossesPoly (exts.getD k2 []) h) = false))) := by
  intro exts
  induction exts with
  | nil =>
    intro ints hmem
    constructor
    · simp [assignHoles, hmem]
    · intro k hk
      exact absurd hk (Nat.not_lt_zero k)
  | cons e es ih =>
    intro ints hmem
    by_cases hP : (ops.containsPrep e h || ops.crossesPoly e h) = true
    · have hrest : h ∉ ints.filter
          (fun x => !(ops.containsPrep e x || ops.crossesPoly e x)) := by
        intro hx
        have := (List.mem_filter.mp hx).2
        rw [hP] at this
        simp at this
      constructor
      · simp only [assignHoles]
        constructor
        · intro hx
          exact absurd (assignHoles_leftover ops es _ hx) hrest
        · intro hall
          have := hall e (List.mem_cons_self _ _)
          rw [hP] at this
          simp at this
      · intro k hk
        cases k with
        | zero =>
          simp only [assignHoles, List.getD_cons_zero]
          constructor
          · intro _
            refine ⟨by simpa using hP, fun k2 hk2 => absurd hk2 (Nat.not_lt_zero k2)⟩
          · intro _
            exact List.mem_filter.mpr ⟨hmem, hP⟩
        | succ k2 =>
          simp only [assignHoles, List.getD_cons_succ]
          have hk2 : k2 < es.length := by simpa using hk
          have hlen : (assignHoles ops es (ints.filter
              (fun x => !(ops.containsPrep e x || ops.crossesPoly e x)))).1.length
              = es.length := assignHoles_length ops es _
          constructor
          · intro hx
            exfalso
            have hget : (assignHoles ops es (ints.filter
                (fun x => !(ops.containsPrep e x || ops.crossesPoly e x)))).1.getD k2 ([], [])
                ∈ (assignHoles ops es (ints.filter
                (fun x => !(ops.containsPrep e x || ops.crossesPoly e x)))).1 := by
              rw [List.getD_eq_getElem _ _ (by omega)]
              exact List.getElem_mem _
            have hsub := (assignHoles_pairs ops es _ _ hget).2
            exact hrest (hsub hx)
          · rintro ⟨_, hall⟩
            have := hall 0 (Nat.succ_pos k2)
            rw [List.getD_cons_zero] at this
            rw [hP] at this
            simp at this
    · have hPf : (ops.containsPrep e h || ops.crossesPoly e h) = false := by
        simpa using hP
      have hrest : h ∈ ints.filter
          (fun x => !(ops.containsPrep e x || ops.crossesPoly e x)) :=
        List.mem_filter.mpr ⟨hmem, by rw [hPf]; rfl⟩
      obtain ⟨ih1, ih2⟩ := ih _ hrest
      constructor
      · simp only [assignHoles]
        rw [ih1, List.forall_mem_cons]
        constructor
        · intro hall
          exact ⟨hPf, hall⟩
        · intro hall
          exact hall.2
      · intro k hk
        cases k with
        | zero =>
          simp only [assignHoles, List.getD_cons_zero]
          constructor
          · intro hx
            have := (List.mem_filter.mp hx).2
            rw [hPf] at this
            simp at this
          · rintro ⟨hc, _⟩
            rw [hPf] at hc
            simp at hc
        | succ k2 =>
          simp only [assignHoles, List.getD_cons_succ]
          have hk2 : k2 < es.length := by simpa using hk
          rw [ih2 k2 hk2]
          constructor
          · rintro ⟨hc, hall⟩
            refine ⟨hc, ?_⟩
            intro k3 hk3
            cases k3 with
            | zero => simpa using hPf
            | succ k4 =>
              rw [List.getD_cons_succ]
              exact hall k4 (by omega)
          · rintro ⟨hc, hall⟩
            refine ⟨hc, ?_⟩
            intro k3 hk3
            have := hall (k3 + 1) (by omega)
            rwa [List.getD_cons_succ] at this

/-- Claim C7: in the hole-assignment step, a hole candidate is claimed by the
first exterior (in scan order) whose region contains it or, failing that,
crosses it; it is claimed by at most one exterior, and once claimed it is
absent from the left-over pool that feeds orphan-hole inversion, which it
reaches exactly when no exterior contains or crosses it. -/
theorem c7_hole_assignment (ops : GeoOps) (exts ints : List Ring) (h : Ring)
    (hmem : h ∈ ints) :
    ((assignHoles ops exts ints).1.map Prod.fst = exts) ∧
    (h ∈ (assignHoles ops exts ints).2 ↔
      ∀ e ∈ exts, (ops.containsPrep e h || ops.crossesPoly e h) = false) ∧
    (∀ k, k < exts.length →
      (h ∈ ((assignHoles ops exts ints).1.getD k ([], [])).2 ↔
        ((ops.containsPrep (exts.getD k []) h ||
            ops.crossesPoly (exts.getD k []) h) = true ∧
          ∀ k2, k2 < k → (ops.containsPrep (exts.getD k2 []) h ||
            ops.crossesPoly (exts.getD k2 []) h) = false))) := by
  obtain ⟨h1, h2⟩ := assignHoles_spec ops h exts ints hmem
  exact ⟨assignHoles_fst ops exts ints, h1, h2⟩

theorem c7_hole_assignment_witness :
    ((assignHoles trivOps [[((1 : ℚ), (1 : ℚ))]] [[((2 : ℚ), (2 : ℚ))]]).1.map Prod.fst
      = [[((1 : ℚ), (1 : ℚ))]]) ∧
    ([((2 : ℚ), (2 : ℚ))] ∈
        (assignHoles trivOps [[((1 : ℚ), (1 : ℚ))]] [[((2 : ℚ), (2 : ℚ))]]).2 ↔
      ∀ e ∈ [[((1 : ℚ), (1 : ℚ))]],
        (trivOps.containsPrep e [((2 : ℚ), (2 : ℚ))] ||
          trivOps.crossesPoly e [((2 : ℚ), (2 : ℚ))]) = false) := by
  have h := c7_hole_assignment trivOps [[((1 : ℚ), (1 : ℚ))]] [[((2 : ℚ), (2 : ℚ))]]
    [((2 : ℚ), (2 : ℚ))] (by decide)
  exact ⟨h.1, h.2.1⟩

/-- Claim C6 (amended): a ring is classified as an exterior candidate exactly
when its own orientation equals `is_ccw` and as a hole candidate exactly when
it is opposite; every classified exterior emitted in a polygon part has
orientation `is_ccw` and every hole emitted with it has orientation
`!is_ccw`.  Inverted orphan parts, however, are appended exactly as the
external difference/intersection operations produce them, with no
reorientation. -/
theorem c6_orientation (ops : GeoOps) (rings : List Ring) (flag : Bool) :
    (∀ r : Ring, r ∈ exteriorCandidates ops rings flag ↔
      (r ∈ rings ∧ ops.is_ccw r = flag)) ∧
    (∀ r : Ring, r ∈ interiorCandidates ops rings flag ↔
      (r ∈ rings ∧ ops.is_ccw r = !flag)) ∧
    (∀ pr ∈ (assignHoles ops (exteriorCandidates ops rings flag)
        (interiorCandidates ops rings flag)).1,
      ops.is_ccw pr.1 = flag ∧ ∀ hr ∈ pr.2, ops.is_ccw hr = !flag) := by
  have hext : ∀ r : Ring, r ∈ exteriorCandidates ops rings flag ↔
      (r ∈ rings ∧ ops.is_ccw r = flag) := by
    intro r
    rw [exteriorCandidates, List.mem_filter]
    constructor
    · rintro ⟨h1, h2⟩
      refine ⟨h1, ?_⟩
      cases hc : ops.is_ccw r <;> cases hf : flag <;> simp_all
    · rintro ⟨h1, h2⟩
      refine ⟨h1, ?_⟩
      rw [h2]
      simp
  have hint : ∀ r : Ring, r ∈ interiorCandidates ops rings flag ↔
      (r ∈ rings ∧ ops.is_ccw r = !flag) := by
    intro r
    rw [interiorCandidates, List.mem_filter]
    constructor
    · rintro ⟨h1, h2⟩
      refine ⟨h1, ?_⟩
      cases hc : ops.is_ccw r <;> cases hf : flag <;> simp_all
    · rintro ⟨h1, h2⟩
      refine ⟨h1, ?_⟩
      rw [h2]
      cases flag <;> simp
  refine ⟨hext, hint, ?_⟩
  intro pr hpr
  obtain ⟨h1, h2⟩ := assignHoles_pairs ops _ _ pr hpr
  refine ⟨((hext pr.1).mp h1).2, ?_⟩
  intro hr hhr
  exact ((hint hr).mp (h2 hhr)).2

theorem c6_orientation_witness :
    ([((1 : ℚ), (1 : ℚ))] ∈ exteriorCandidates trivOps [[((1 : ℚ), (1 : ℚ))]] true ↔
      ([((1 : ℚ), (1 : ℚ))] ∈ ([[((1 : ℚ), (1 : ℚ))]] : List Ring) ∧
        trivOps.is_ccw [((1 : ℚ), (1 : ℚ))] = true)) ∧
    (trivOps.is_ccw (([((1 : ℚ), (1 : ℚ))], []) : Ring × List Ring).1 = true ∧
      ∀ hr ∈ (([((1 : ℚ), (1 : ℚ))], []) : Ring × List Ring).2,
        trivOps.is_ccw hr = !true) := by
  refine ⟨(c6_orientation trivOps [[((1 : ℚ), (1 : ℚ))]] true).1 [((1 : ℚ), (1 : ℚ))], ?_⟩
  exact (c6_orientation trivOps [[((1 : ℚ), (1 : ℚ))]] true).2.2
    ([((1 : ℚ), (1 : ℚ))], []) (by decide)

/-- Claim C6 counterexample: with `is_ccw = true`, a lone clockwise ring is
classified as a hole candidate, goes unclaimed, and is inverted; the part
emitted for it carries whatever shell the external difference/intersection
produced — here a clockwise square — so an emitted polygon exterior has
orientation `false ≠ is_ccw`, refuting the claim's parenthetical about
inverted orphan parts. -/
theorem c6_orientation_counterexample :
    ringsToMultiPolygon cexOps [[((4 : ℚ), 4), (4, 5), (5, 4)]] true
      = [⟨[(1, 1), (1, 12), (12, 12), (12, 1)], [[(4, 4), (5, 4), (4, 5)]]⟩] ∧
    cexOps.is_ccw [((1 : ℚ), 1), (1, 12), (12, 12), (12, 1)] = false := by
  have htri : isCcwArea ([(4, 4), (4, 5), (5, 4)] : Ring) = false := by
    rw [isCcwArea, decide_eq_false_iff_not]
    norm_num [doubledSignedArea, List.zip, List.zipWith, List.foldl]
  have hsq : isCcwArea ([(1, 1), (1, 12), (12, 12), (12, 1)] : Ring) = false := by
    rw [isCcwArea, decide_eq_false_iff_not]
    norm_num [doubledSignedArea, List.zip, List.zipWith, List.foldl]
  constructor
  · have hint2 : interiorCandidates cexOps [([(4, 4), (4, 5), (5, 4)] : Ring)] true
        = [([(4, 4), (4, 5), (5, 4)] : Ring)] := by
      simp [interiorCandidates, cexOps, htri]
    have hext2 : exteriorCandidates cexOps [([(4, 4), (4, 5), (5, 4)] : Ring)] true
        = [] := by
      simp [exteriorCandidates, cexOps, htri]
    simp only [ringsToMultiPolygon]
    rw [hint2, hext2]
    simp [assignHoles, invertOrphan, cexOps]
  · show isCcwArea [((1 : ℚ), 1), (1, 12), (12, 12), (12, 1)] = false
    exact hsq

theorem fuseOnce_len {ls : List Frag} {i j : Nat} (hi : i < ls.length)
    (hj : j < ls.length) (hne : j ≠ i) :
    (fuseOnce ls i j).length = ls.length - 1 := by
  have hb : max i j < ls.length := by omega
  have h1 : (ls.eraseIdx (max i j)).length = ls.length - 1 := by
    rw [List.length_eraseIdx]
    simp [hb]
  have ha : min i j < ls.length - 1 := by omega
  have h2 : ((ls.eraseIdx (max i j)).eraseIdx (min i j)).length
      = ls.length - 1 - 1 := by
    rw [List.length_eraseIdx, h1]
    simp [ha]
  simp only [fuseOnce, List.length_append, h2, List.length_singleton]
  omega

theorem doubleErase_getD (l : List Frag) (a b m : Nat) (hab : a < b)
    (hb : b < l.length) (hm : m < l.length - 2) :
    ∃ m2, m2 < l.length ∧ m2 ≠ a ∧ m2 ≠ b ∧ m ≤ m2 ∧
      ((l.eraseIdx b).eraseIdx a).getD m [] = l.getD m2 [] ∧
      (m < a → m2 = m) := by
  have hlb : (l.eraseIdx b).length = l.length - 1 := by
    rw [List.length_eraseIdx]
    simp [hb]
  have hlab : ((l.eraseIdx b).eraseIdx a).length = l.length - 2 := by
    rw [List.length_eraseIdx, hlb]
    have h : a < l.length - 1 := by omega
    rw [if_pos h]
    omega
  by_cases hma : m < a
  · refine ⟨m, by omega, by omega, by omega, le_refl m, ?_, fun _ => rfl⟩
    rw [List.getD_eq_getElem _ _ (by omega : m < ((l.eraseIdx b).eraseIdx a).length),
      List.getD_eq_getElem _ _ (by omega : m < l.length),
      List.getElem_eraseIdx, dif_pos hma, List.getElem_eraseIdx,
      dif_pos (by omega : m < b)]
  · by_cases hmb : m + 1 < b
    · refine ⟨m + 1, by omega, by omega, by omega, by omega, ?_,
        fun hc => absurd hc hma⟩
      rw [List.getD_eq_getElem _ _ (by omega : m < ((l.eraseIdx b).eraseIdx a).length),
        List.getD_eq_getElem _ _ (by omega : m + 1 < l.length),
        List.getElem_eraseIdx, dif_neg hma, List.getElem_eraseIdx, dif_pos hmb]
    · refine ⟨m + 2, by omega, by omega, by omega, by omega, ?_,
        fun hc => absurd hc hma⟩
      rw [List.getD_eq_getElem _ _ (by omega : m < ((l.eraseIdx b).eraseIdx a).length),
        List.getD_eq_getElem _ _ (by omega : m + 2 < l.length),
        List.getElem_eraseIdx, dif_neg hma, List.getElem_eraseIdx, dif_neg hmb]

theorem lastC_append (u v : Frag) :
    lastC (u ++ v) = lastC v ∨ lastC (u ++ v) = lastC u := by
  cases hv : v with
  | nil =>
    right
    simp [hv]
  | cons c cs =>
    left
    have hx : (c :: cs).getLast? = some ((c :: cs).getLast (by simp)) :=
      List.getLast?_eq_getLast _ _
    rw [lastC, lastC, List.getLastD_eq_getLast?, List.getLastD_eq_getLast?,
      List.getLast?_append, hx]
    rfl

theorem lastC_drop_one (l : Frag) (h : l.drop 1 ≠ []) :
    lastC (l.drop 1) = lastC l := by
  cases l with
  | nil => simp at h
  | cons a t =>
    have ht : t ≠ [] := by simpa using h
    have hx : t.getLast? = some (t.getLast ht) := List.getLast?_eq_getLast _ _
    rw [show (a :: t).drop 1 = t from rfl, lastC, lastC, List.getLastD_cons,
      List.getLastD_eq_getLast?, List.getLastD_eq_getLast?, hx]
    rfl

theorem lastC_combo (u v : Frag) :
    lastC (u ++ v.drop 1) = lastC v ∨ lastC (u ++ v.drop 1) = lastC u := by
  rcases lastC_append u (v.drop 1) with h | h
  · by_cases hv : v.drop 1 = []
    · right
      rw [hv] at h ⊢
      simp
    · exact Or.inl (h.trans (lastC_drop_one v hv))
  · exact Or.inr h

theorem fuseLoop_stop {tol : ℚ} {ls : List Frag} {i : Nat}
    (hi : ¬i < ls.length) : fuseLoop tol ls i = ls := by
  rw [fuseLoop.eq_def, dif_neg hi]

theorem fuseLoop_step_some {tol : ℚ} {ls : List Frag} {i j : Nat}
    (hi : i < ls.length) (hj : findJ tol ls i = some j) :
    fuseLoop tol ls i = fuseLoop tol (fuseOnce ls i j) (min i j) := by
  rw [fuseLoop.eq_def, dif_pos hi]
  split
  · rename_i j2 heq
    rw [hj] at heq
    injection heq with h2
    rw [h2]
  · rename_i heq
    rw [hj] at heq
    exact absurd heq (by simp)

theorem fuseLoop_step_none {tol : ℚ} {ls : List Frag} {i : Nat}
    (hi : i < ls.length) (hj : findJ tol ls i = none) :
    fuseLoop tol ls i = fuseLoop tol ls (i + 1) := by
  rw [fuseLoop.eq_def, dif_pos hi]
  split
  · rename_i j2 heq
    rw [hj] at heq
    exact absurd heq (by simp)
  · rfl

theorem fuseLoop_noFusable (tol : ℚ) :
    ∀ (n : Nat) (ls : List Frag) (i : Nat),
      ls.length * (ls.length + 2) ≤ n + i →
      (∀ k m, k < i → k < ls.length → m < ls.length → k ≠ m →
        allclose tol (firstC (ls.getD k [])) (lastC (ls.getD m [])) = false) →
      noFusablePair tol (fuseLoop tol ls i) := by
  intro n
  induction n with
  | zero =>
    intro ls i hn hInv
    by_cases hi : i < ls.length
    · exfalso
      have h1 : ls.length ≤ ls.length * (ls.length + 2) := by
        nlinarith [ls.length.zero_le]
      linarith
    · rw [fuseLoop_stop hi]
      intro k m hk hm hne
      exact hInv k m (by omega) hk hm hne
  | succ n2 ih =>
    intro ls i hn hInv
    by_cases hi : i < ls.length
    · cases hj : findJ tol ls i with
      | some j =>
        obtain ⟨hjlen, hjne, hclose⟩ := findJ_spec hj
        rw [fuseLoop_step_some hi hj]
        have hlen : (fuseOnce ls i j).length = ls.length - 1 :=
          fuseOnce_len hi hjlen hjne
        apply ih
        · obtain ⟨K, hK⟩ : ∃ K, ls.length = K + 1 := ⟨ls.length - 1, by omega⟩
          rw [hlen, hK]
          rw [hK] at hn hi
          have e1 : (K + 1) * (K + 1 + 2) = K * K + 4 * K + 3 := by ring
          have e2 : (K + 1 - 1) * (K + 1 - 1 + 2) = K * K + 2 * K := by
            simp only [Nat.add_sub_cancel]
            ring
          rw [e2]
          rw [e1] at hn
          have hiK : i ≤ K := by omega
          have hmin : 0 ≤ min i j := Nat.zero_le _
          linarith
        · -- the invariant transfers to the fused list below min i j
          intro k m hk hkF hmF hne
          have hab : min i j < max i j := by omega
          have hbl : max i j < ls.length := by omega
          have hka : k < min i j := hk
          have hE1 : (ls.eraseIdx (max i j)).length = ls.length - 1 := by
            rw [List.length_eraseIdx, if_pos hbl]
          have hDlen : ((ls.eraseIdx (max i j)).eraseIdx (min i j)).length
              = ls.length - 2 := by
            rw [List.length_eraseIdx, hE1,
              if_pos (show min i j < ls.length - 1 by omega)]
            omega
          -- the k-side element is unchanged
          have hkD : k < ls.length - 2 := by omega
          obtain ⟨k2, _, _, _, _, hkEq, hkId⟩ :=
            doubleErase_getD ls (min i j) (max i j) k hab hbl hkD
          have hkId2 : k2 = k := hkId hka
          have hkfirst : (fuseOnce ls i j).getD k [] = ls.getD k [] := by
            rw [fuseOnce, List.getD_append _ _ _ k (by rw [hDlen]; omega),
              hkEq, hkId2]
          by_cases hmlast : m < ls.length - 2
          · obtain ⟨m2, hm2len, hm2a, hm2b, hm2ge, hmEq, hm2id⟩ :=
              doubleErase_getD ls (min i j) (max i j) m hab hbl hmlast
            have hmval : (fuseOnce ls i j).getD m [] = ls.getD m2 [] := by
              rw [fuseOnce, List.getD_append _ _ _ m (by rw [hDlen]; omega), hmEq]
            have hkm2 : k ≠ m2 := by
              by_cases hma : m < min i j
              · have h5 : m2 = m := hm2id hma
                omega
              · omega
            rw [hkfirst, hmval]
            exact hInv k m2 (by omega) (by omega) hm2len hkm2
          · have hmeq : m = ls.length - 2 := by
              rw [hlen] at hmF
              omega
            have hmval : (fuseOnce ls i j).getD m []
                = ls.getD j [] ++ (ls.getD i []).drop 1 := by
              rw [fuseOnce, List.getD_append_right _ _ _ m (by rw [hDlen]; omega),
                hDlen, hmeq]
              simp
            rw [hkfirst, hmval]
            rcases lastC_combo (ls.getD j []) (ls.getD i []) with hcase | hcase
            · rw [hcase]
              exact hInv k i (by omega) (by omega) hi (by omega)
            · rw [hcase]
              exact hInv k j (by omega) (by omega) hjlen (by omega)
      | none =>
        rw [fuseLoop_step_none hi hj]
        apply ih
        · linarith
        · intro k m hk hkF hmF hne
          by_cases hki : k < i
          · exact hInv k m hki hkF hmF hne
          · have hkeq : k = i := by omega
            subst hkeq
            rw [findJ, List.find?_eq_none] at hj
            have := hj m (by rw [List.mem_range]; exact hmF)
            simp only [Bool.and_eq_true, bne_iff_ne, not_and] at this
            have h2 := this (by omega)
            simpa using h2
    · rw [fuseLoop_stop hi]
      intro k m hk hm hne
      exact hInv k m (by omega) hk hm hne

/-- Claim C2: in the fusion step, whenever the scan at outer index `i` finds
a `j` (the least index with `i != j` and fragment `i`'s first coordinate
`np.allclose` to fragment `j`'s last coordinate at the tolerance
`max(|x_limits|, |y_limits|) * 1e-5`), that pair is replaced by the single
fragment `line_strings[j].coords + line_strings[i].coords[1:]` (the
duplicated joint point dropped) appended to the pool; and the loop
terminates only when no fusable ordered pair remains among the surviving
fragments. -/
theorem c2_fusion (xlims ylims : ℚ × ℚ) (ls : List Frag) :
    (∀ i j, i < ls.length → findJ (thresholdOf xlims ylims) ls i = some j →
      j < ls.length ∧ j ≠ i ∧
      allclose (thresholdOf xlims ylims)
        (firstC (ls.getD i [])) (lastC (ls.getD j [])) = true ∧
      fuseLoop (thresholdOf xlims ylims) ls i
        = fuseLoop (thresholdOf xlims ylims)
            (((ls.eraseIdx (max i j)).eraseIdx (min i j)) ++
              [ls.getD j [] ++ (ls.getD i []).drop 1]) (min i j)) ∧
    noFusablePair (thresholdOf xlims ylims)
      (fuseLoop (thresholdOf xlims ylims) ls 0) := by
  constructor
  · intro i j hi hj
    obtain ⟨h1, h2, h3⟩ := findJ_spec hj
    exact ⟨h1, h2, h3, fuseLoop_step_some hi hj⟩
  · apply fuseLoop_noFusable (thresholdOf xlims ylims)
      (ls.length * (ls.length + 2))
    · exact Nat.le_add_right _ _
    · intro k m hk
      omega

theorem c2_fusion_witness :
    (fuseLoop (thresholdOf ((1 : ℚ), 1) ((1 : ℚ), 1))
        [[((2 : ℚ), (2 : ℚ)), ((3 : ℚ), (2 : ℚ))],
         [((3 : ℚ), (2 : ℚ)), ((2 : ℚ), (2 : ℚ))]] 0
      = fuseLoop (thresholdOf ((1 : ℚ), 1) ((1 : ℚ), 1))
          ((([[((2 : ℚ), (2 : ℚ)), ((3 : ℚ), (2 : ℚ))],
              [((3 : ℚ), (2 : ℚ)), ((2 : ℚ), (2 : ℚ))]].eraseIdx
                (max 0 1)).eraseIdx (min 0 1)) ++
            [[[((2 : ℚ), (2 : ℚ)), ((3 : ℚ), (2 : ℚ))],
              [((3 : ℚ), (2 : ℚ)), ((2 : ℚ), (2 : ℚ))]].getD 1 [] ++
              ([[((2 : ℚ), (2 : ℚ)), ((3 : ℚ), (2 : ℚ))],
                [((3 : ℚ), (2 : ℚ)), ((2 : ℚ), (2 : ℚ))]].getD 0 []).drop 1])
          (min 0 1)) ∧
    allclose (thresholdOf ((1 : ℚ), 1) ((1 : ℚ), 1))
      (firstC ((fuseLoop (thresholdOf ((1 : ℚ), 1) ((1 : ℚ), 1))
        [[((2 : ℚ), (2 : ℚ)), ((3 : ℚ), (2 : ℚ))],
         [((9 : ℚ), (9 : ℚ)), ((8 : ℚ), (8 : ℚ))]] 0).getD 0 []))
      (lastC ((fuseLoop (thresholdOf ((1 : ℚ), 1) ((1 : ℚ), 1))
        [[((2 : ℚ), (2 : ℚ)), ((3 : ℚ), (2 : ℚ))],
         [((9 : ℚ), (9 : ℚ)), ((8 : ℚ), (8 : ℚ))]] 0).getD 1 [])) = false := by
  have htolnn : (0 : ℚ) ≤ thresholdOf ((1 : ℚ), 1) ((1 : ℚ), 1) :=
    thresholdOf_nonneg _ _
  have hclose22 : allclose (thresholdOf ((1 : ℚ), 1) ((1 : ℚ), 1))
      ((2 : ℚ), (2 : ℚ)) ((2 : ℚ), (2 : ℚ)) = true :=
    allclose_refl _ htolnn _
  have htol : thresholdOf ((1 : ℚ), 1) ((1 : ℚ), 1) = 1 / 100000 := by
    norm_num [thresholdOf]
  have hfind : findJ (thresholdOf ((1 : ℚ), 1) ((1 : ℚ), 1))
      [[((2 : ℚ), (2 : ℚ)), ((3 : ℚ), (2 : ℚ))],
       [((3 : ℚ), (2 : ℚ)), ((2 : ℚ), (2 : ℚ))]] 0 = some 1 := by
    rw [findJ]
    rw [show List.range
      [[((2 : ℚ), (2 : ℚ)), ((3 : ℚ), (2 : ℚ))],
       [((3 : ℚ), (2 : ℚ)), ((2 : ℚ), (2 : ℚ))]].length = [0, 1] from rfl]
    rw [List.find?_cons_of_neg _ (by simp)]
    rw [List.find?_cons_of_pos _ (by
      show (true && allclose (thresholdOf ((1 : ℚ), 1) ((1 : ℚ), 1))
        ((2 : ℚ), (2 : ℚ)) ((2 : ℚ), (2 : ℚ))) = true
      rw [hclose22]
      rfl)]
  have hne28 : allclose (thresholdOf ((1 : ℚ), 1) ((1 : ℚ), 1))
      ((2 : ℚ), (2 : ℚ)) ((8 : ℚ), (8 : ℚ)) = false := by
    rw [htol]
    norm_num [allclose]
  have hne93 : allclose (thresholdOf ((1 : ℚ), 1) ((1 : ℚ), 1))
      ((9 : ℚ), (9 : ℚ)) ((3 : ℚ), (2 : ℚ)) = false := by
    rw [htol]
    norm_num [allclose]
  have hnone0 : findJ (thresholdOf ((1 : ℚ), 1) ((1 : ℚ), 1))
      [[((2 : ℚ), (2 : ℚ)), ((3 : ℚ), (2 : ℚ))],
       [((9 : ℚ), (9 : ℚ)), ((8 : ℚ), (8 : ℚ))]] 0 = none := by
    rw [findJ]
    rw [show List.range
      [[((2 : ℚ), (2 : ℚ)), ((3 : ℚ), (2 : ℚ))],
       [((9 : ℚ), (9 : ℚ)), ((8 : ℚ), (8 : ℚ))]].length = [0, 1] from rfl]
    rw [List.find?_cons_of_neg _ (by simp)]
    rw [List.find?_cons_of_neg _ (by
      show ¬(true && allclose (thresholdOf ((1 : ℚ), 1) ((1 : ℚ), 1))
        ((2 : ℚ), (2 : ℚ)) ((8 : ℚ), (8 : ℚ))) = true
      rw [hne28]
      simp)]
    rfl
  have hnone1 : findJ (thresholdOf ((1 : ℚ), 1) ((1 : ℚ), 1))
      [[((2 : ℚ), (2 : ℚ)), ((3 : ℚ), (2 : ℚ))],
       [((9 : ℚ), (9 : ℚ)), ((8 : ℚ), (8 : ℚ))]] 1 = none := by
    rw [findJ]
    rw [show List.range
      [[((2 : ℚ), (2 : ℚ)), ((3 : ℚ), (2 : ℚ))],
       [((9 : ℚ), (9 : ℚ)), ((8 : ℚ), (8 : ℚ))]].length = [0, 1] from rfl]
    rw [List.find?_cons_of_neg _ (by
      show ¬(true && allclose (thresholdOf ((1 : ℚ), 1) ((1 : ℚ), 1))
        ((9 : ℚ), (9 : ℚ)) ((3 : ℚ), (2 : ℚ))) = true
      rw [hne93]
      simp)]
    rw [List.find?_cons_of_neg _ (by simp)]
    rfl
  have hEval : fuseLoop (thresholdOf ((1 : ℚ), 1) ((1 : ℚ), 1))
      [[((2 : ℚ), (2 : ℚ)), ((3 : ℚ), (2 : ℚ))],
       [((9 : ℚ), (9 : ℚ)), ((8 : ℚ), (8 : ℚ))]] 0
      = [[((2 : ℚ), (2 : ℚ)), ((3 : ℚ), (2 : ℚ))],
         [((9 : ℚ), (9 : ℚ)), ((8 : ℚ), (8 : ℚ))]] := by
    rw [fuseLoop_step_none (by decide) hnone0,
      fuseLoop_step_none (by decide) hnone1, fuseLoop_stop (by decide)]
  constructor
  · exact ((c2_fusion ((1 : ℚ), 1) ((1 : ℚ), 1)
      [[((2 : ℚ), (2 : ℚ)), ((3 : ℚ), (2 : ℚ))],
       [((3 : ℚ), (2 : ℚ)), ((2 : ℚ), (2 : ℚ))]]).1 0 1 (by decide) hfind).2.2.2
  · exact (c2_fusion ((1 : ℚ), 1) ((1 : ℚ), 1)
      [[((2 : ℚ), (2 : ℚ)), ((3 : ℚ), (2 : ℚ))],
       [((9 : ℚ), (9 : ℚ)), ((8 : ℚ), (8 : ℚ))]]).2 0 1
      (by rw [hEval]; decide) (by rw [hEval]; decide) (by decide)

theorem attachLoop_done (ls : List Frag) (bd : Point → ℚ) (edges : List Event)
    (acc : List Frag) : attachLoop ls bd edges [] none acc = .ok acc := by
  rw [attachLoop.eq_def]
  rfl

theorem attachLoop_pop (ls : List Frag) (bd : Point → ℚ) (edges : List Event)
    (rem : List (Nat × Frag)) (acc : List Frag) (origin : Nat) (cur : Frag)
    (hrem : rem.getLast? = some (origin, cur)) :
    attachLoop ls bd edges rem none acc
      = attachLoop ls bd edges rem.dropLast (some (origin, cur, [])) acc := by
  rw [attachLoop.eq_def]
  split
  · split
    · rename_i heq2
      rw [hrem] at heq2
      exact absurd heq2 (by simp)
    · rename_i o2 c2 heq2
      rw [hrem] at heq2
      injection heq2 with h2
      rw [Prod.mk.injEq] at h2
      rw [h2.1, h2.2]
  · rename_i heq
    exact absurd heq (by simp)

theorem attachLoop_exhaust (ls : List Frag) (bd : Point → ℚ)
    (rem : List (Nat × Frag)) (origin : Nat) (cur : Frag) (added : List Nat)
    (acc : List Frag) :
    attachLoop ls bd [] rem (some (origin, cur, added)) acc = .exhausted := by
  rw [attachLoop.eq_def]

theorem attachLoop_step (ls : List Frag) (bd : Point → ℚ) (e : Event)
    (es : List Event) (rem : List (Nat × Frag)) (origin : Nat) (cur : Frag)
    (added : List Nat) (acc : List Frag) :
    attachLoop ls bd (e :: es) rem (some (origin, cur, added)) acc =
      (if ((e :: es).getD (findFirstGeIdx (e :: es) (bd (lastC cur))) e).kind then
        attachLoop ls bd
          ((e :: es).eraseIdx (findFirstGeIdx (e :: es) (bd (lastC cur)))) rem
          (some (origin,
            cur ++ [evPt ((e :: es).getD (findFirstGeIdx (e :: es) (bd (lastC cur))) e)],
            added)) acc
      else if evId ((e :: es).getD (findFirstGeIdx (e :: es) (bd (lastC cur))) e)
          = origin then
        attachLoop ls bd
          ((e :: es).eraseIdx (findFirstGeIdx (e :: es) (bd (lastC cur)))) rem
          none (acc ++ [cur])
      else if evId ((e :: es).getD (findFirstGeIdx (e :: es) (bd (lastC cur))) e)
          ∈ added then
        .inconsistency
          (evId ((e :: es).getD (findFirstGeIdx (e :: es) (bd (lastC cur))) e)) added
      else
        attachLoop ls bd
          ((e :: es).eraseIdx (findFirstGeIdx (e :: es) (bd (lastC cur))))
          (rem.filter (fun p =>
            p.1 != evId ((e :: es).getD (findFirstGeIdx (e :: es) (bd (lastC cur))) e)))
          (some (origin,
            cur ++ ls.getD (evId ((e :: es).getD
              (findFirstGeIdx (e :: es) (bd (lastC cur))) e)) [],
            evId ((e :: es).getD (findFirstGeIdx (e :: es) (bd (lastC cur))) e)
              :: added)) acc) := by
  rw [attachLoop.eq_def]

theorem attachLoop_ok (ls : List Frag) (bd : Point → ℚ) (edges : List Event)
    (rem : List (Nat × Frag)) (acc : List Frag)
    (hrem : rem.getLast? = none) :
    attachLoop ls bd edges rem none acc = .ok acc := by
  rw [attachLoop.eq_def]
  split
  · split
    · rfl
    · rename_i o2 c2 heq2
      rw [hrem] at heq2
      exact absurd heq2 (by simp)
  · rename_i heq
    exact absurd heq (by simp)

theorem attachLoop_vertex (ls : List Frag) (bd : Point → ℚ) (e : Event)
    (es : List Event) (rem : List (Nat × Frag)) (origin : Nat) (cur : Frag)
    (added : List Nat) (acc : List Frag) (ev : Event)
    (hev : (e :: es).getD (findFirstGeIdx (e :: es) (bd (lastC cur))) e = ev)
    (hkind : ev.kind = true) :
    attachLoop ls bd (e :: es) rem (some (origin, cur, added)) acc
      = attachLoop ls bd
          ((e :: es).eraseIdx (findFirstGeIdx (e :: es) (bd (lastC cur)))) rem
          (some (origin, cur ++ [evPt ev], added)) acc := by
  rw [attachLoop_step, hev, if_pos hkind]

theorem attachLoop_close (ls : List Frag) (bd : Point → ℚ) (e : Event)
    (es : List Event) (rem : List (Nat × Frag)) (origin : Nat) (cur : Frag)
    (added : List Nat) (acc : List Frag) (ev : Event)
    (hev : (e :: es).getD (findFirstGeIdx (e :: es) (bd (lastC cur))) e = ev)
    (hkind : ev.kind = false) (hid : evId ev = origin) :
    attachLoop ls bd (e :: es) rem (some (origin, cur, added)) acc
      = attachLoop ls bd
          ((e :: es).eraseIdx (findFirstGeIdx (e :: es) (bd (lastC cur)))) rem
          none (acc ++ [cur]) := by
  rw [attachLoop_step, hev, if_neg (by rw [hkind]; simp), if_pos hid]

theorem attachLoop_incons (ls : List Frag) (bd : Point → ℚ) (e : Event)
    (es : List Event) (rem : List (Nat × Frag)) (origin : Nat) (cur : Frag)
    (added : List Nat) (acc : List Frag) (ev : Event)
    (hev : (e :: es).getD (findFirstGeIdx (e :: es) (bd (lastC cur))) e = ev)
    (hkind : ev.kind = false) (hid : evId ev ≠ origin) (hmem : evId ev ∈ added) :
    attachLoop ls bd (e :: es) rem (some (origin, cur, added)) acc
      = .inconsistency (evId ev) added := by
  rw [attachLoop_step, hev, if_neg (by rw [hkind]; simp), if_neg hid, if_pos hmem]

theorem attachLoop_append (ls : List Frag) (bd : Point → ℚ) (e : Event)
    (es : List Event) (rem : List (Nat × Frag)) (origin : Nat) (cur : Frag)
    (added : List Nat) (acc : List Frag) (ev : Event)
    (hev : (e :: es).getD (findFirstGeIdx (e :: es) (bd (lastC cur))) e = ev)
    (hkind : ev.kind = false) (hid : evId ev ≠ origin)
    (hnot : evId ev ∉ added) :
    attachLoop ls bd (e :: es) rem (some (origin, cur, added)) acc
      = attachLoop ls bd
          ((e :: es).eraseIdx (findFirstGeIdx (e :: es) (bd (lastC cur))))
          (rem.filter (fun p => p.1 != evId ev))
          (some (origin, cur ++ ls.getD (evId ev) [], evId ev :: added)) acc := by
  rw [attachLoop_step, hev, if_neg (by rw [hkind]; simp), if_neg hid, if_neg hnot]

theorem findFirstGeIdx_lt (a : List Event) (x : ℚ) (h : a ≠ []) :
    findFirstGeIdx a x < a.length := by
  simp only [findFirstGeIdx]
  split
  · assumption
  · exact List.length_pos.mpr h

theorem hasEndpoint_eraseIdx {edges : List Event} {j k : Nat}
    (h : HasEndpointEvent edges j) (hk : k < edges.length)
    (hne : ¬(edges[k].kind = false ∧ ∃ t p, edges[k].data = .seg j t p)) :
    HasEndpointEvent (edges.eraseIdx k) j := by
  obtain ⟨ev, hmem, hkind, hid, t, p, hdata⟩ := h
  refine ⟨ev, mem_eraseIdx_of_ne hmem ?_, hkind, hid, t, p, hdata⟩
  intro hk2 heq
  apply hne
  rw [← heq]
  exact ⟨hkind, t, p, hdata⟩

theorem mem_insertMids (interp : ℚ → Point) (a : Event) :
    ∀ (l : List Event) (prev : Option Event), a ∈ l → a ∈ insertMids interp prev l := by
  intro l
  induction l with
  | nil =>
    intro prev ha
    simp at ha
  | cons e rest ih =>
    intro prev ha
    rcases List.mem_cons.mp ha with rfl | h2
    · cases prev with
      | none =>
        show a ∈ a :: insertMids interp (some a) rest
        exact List.mem_cons_self _ _
      | some p =>
        simp only [insertMids]
        split
        · simp
        · simp
    · cases prev with
      | none =>
        show a ∈ e :: insertMids interp (some e) rest
        exact List.mem_cons_of_mem _ (ih (some e) h2)
      | some p =>
        simp only [insertMids]
        split
        · exact List.mem_cons_of_mem _ (List.mem_cons_of_mem _ (ih none h2))
        · exact List.mem_cons_of_mem _ (ih (some e) h2)

theorem firstEvent_mem_pipeline (bd : Point → ℚ) (interp : ℚ → Point)
    (lineStrings : List Frag) (bcs : List Point) (j : Nat) (f : Frag)
    (hjf : (j, f) ∈ lineStrings.enum) :
    HasEndpointEvent
      ((insertMids interp none (sortEvents (buildEvents bd lineStrings bcs))).filter
        filter_last) j := by
  refine ⟨⟨bd (firstC f), false, .seg j true (firstC f)⟩, ?_, rfl, rfl,
    ⟨true, firstC f, rfl⟩⟩
  rw [List.mem_filter]
  constructor
  · apply mem_insertMids
    rw [sortEvents, List.mem_mergeSort, buildEvents]
    apply List.mem_append_left
    rw [endpointEvents, List.mem_flatMap]
    exact ⟨(j, f), hjf, by simp⟩
  · rfl

theorem attachLoop_inconsistency_mem (ls : List Frag) (bd : Point → ℚ) :
    ∀ (n : Nat) (edges : List Event) (rem : List (Nat × Frag))
      (st : Option (Nat × Frag × List Nat)) (acc : List Frag)
      (j : Nat) (added2 : List Nat),
      edges.length + rem.length ≤ n →
      attachLoop ls bd edges rem st acc = .inconsistency j added2 →
      j ∈ added2 := by
  intro n
  induction n with
  | zero =>
    intro edges rem st acc j a2 hn h
    match st with
    | none =>
      cases hrem : rem.getLast? with
      | none =>
        rw [attachLoop_ok ls bd edges rem acc hrem] at h
        simp at h
      | some p =>
        exfalso
        have hne : rem ≠ [] := by
          intro hnil
          rw [hnil] at hrem
          simp at hrem
        have : 0 < rem.length := List.length_pos.mpr hne
        omega
    | some (origin, cur, added) =>
      match edges, hn, h with
      | [], hn, h =>
        rw [attachLoop_exhaust] at h
        simp at h
      | e :: es, hn, h =>
        simp at hn
  | succ n2 ih =>
    intro edges rem st acc j a2 hn h
    match st with
    | none =>
      cases hrem : rem.getLast? with
      | none =>
        rw [attachLoop_ok ls bd edges rem acc hrem] at h
        simp at h
      | some p =>
        obtain ⟨o, c⟩ := p
        rw [attachLoop_pop ls bd edges rem acc o c hrem] at h
        have hne : rem ≠ [] := by
          intro hnil
          rw [hnil] at hrem
          simp at hrem
        refine ih edges rem.dropLast _ acc j a2 ?_ h
        rw [List.length_dropLast]
        have : 0 < rem.length := List.length_pos.mpr hne
        omega
    | some (origin, cur, added) =>
      match edges, hn, h with
      | [], hn, h =>
        rw [attachLoop_exhaust] at h
        simp at h
      | e :: es, hn, h =>
        have hklt : findFirstGeIdx (e :: es) (bd (lastC cur)) < (e :: es).length :=
          findFirstGeIdx_lt _ _ (by simp)
        have herase : ((e :: es).eraseIdx
            (findFirstGeIdx (e :: es) (bd (lastC cur)))).length
            = (e :: es).length - 1 := by
          rw [List.length_eraseIdx, if_pos hklt]
        by_cases hkind :
            ((e :: es).getD (findFirstGeIdx (e :: es) (bd (lastC cur))) e).kind = true
        · rw [attachLoop_vertex ls bd e es rem origin cur added acc _ rfl hkind] at h
          refine ih _ rem _ acc j a2 ?_ h
          rw [herase]
          simp at hn ⊢
          omega
        · have hkf : ((e :: es).getD
              (findFirstGeIdx (e :: es) (bd (lastC cur))) e).kind = false := by
            simpa using hkind
          by_cases hid :
              evId ((e :: es).getD (findFirstGeIdx (e :: es) (bd (lastC cur))) e)
                = origin
          · rw [attachLoop_close ls bd e es rem origin cur added acc _ rfl hkf hid] at h
            refine ih _ rem _ _ j a2 ?_ h
            rw [herase]
            simp at hn ⊢
            omega
          · by_cases hmem :
                evId ((e :: es).getD (findFirstGeIdx (e :: es) (bd (lastC cur))) e)
                  ∈ added
            · rw [attachLoop_incons ls bd e es rem origin cur added acc _ rfl hkf
                hid hmem] at h
              injection h with h1 h2
              rw [← h1, ← h2]
              exact hmem
            · rw [attachLoop_append ls bd e es rem origin cur added acc _ rfl hkf
                hid hmem] at h
              refine ih _ _ _ acc j a2 ?_ h
              rw [herase]
              have hfle := List.length_filter_le (fun p => p.1 != evId
                ((e :: es).getD (findFirstGeIdx (e :: es) (bd (lastC cur))) e)) rem
              simp only [List.length_cons] at hn ⊢
              omega

theorem attachLoop_no_exhaust (ls : List Frag) (bd : Point → ℚ) :
    ∀ (n : Nat) (edges : List Event) (rem : List (Nat × Frag))
      (st : Option (Nat × Frag × List Nat)) (acc : List Frag),
      edges.length + rem.length ≤ n →
      (∀ p ∈ rem, HasEndpointEvent edges p.1) →
      (rem.map Prod.fst).Nodup →
      (∀ origin cur added, st = some (origin, cur, added) →
        HasEndpointEvent edges origin ∧ ∀ p ∈ rem, p.1 ≠ origin) →
      attachLoop ls bd edges rem st acc ≠ .exhausted := by
  intro n
  induction n with
  | zero =>
    intro edges rem st acc hn hOut hnd hst
    match st with
    | none =>
      cases hrem : rem.getLast? with
      | none =>
        rw [attachLoop_ok ls bd edges rem acc hrem]
        simp
      | some p =>
        exfalso
        have hne : rem ≠ [] := by
          intro hnil
          rw [hnil] at hrem
          simp at hrem
        have : 0 < rem.length := List.length_pos.mpr hne
        omega
    | some (origin, cur, added) =>
      match edges, hn, hOut, hst with
      | [], hn, hOut, hst =>
        obtain ⟨⟨ev, hmem, _⟩, _⟩ := hst origin cur added rfl
        simp at hmem
      | e :: es, hn, hOut, hst =>
        exfalso
        simp at hn
  | succ n2 ih =>
    intro edges rem st acc hn hOut hnd hst
    match st with
    | none =>
      cases hrem : rem.getLast? with
      | none =>
        rw [attachLoop_ok ls bd edges rem acc hrem]
        simp
      | some p =>
        obtain ⟨o, c⟩ := p
        rw [attachLoop_pop ls bd edges rem acc o c hrem]
        have hne : rem ≠ [] := by
          intro hnil
          rw [hnil] at hrem
          simp at hrem
        have hgl : rem.getLast hne = (o, c) := by
          have h2 := List.getLast?_eq_getLast rem hne
          rw [hrem] at h2
          exact (Option.some.inj h2).symm
        have hglmem : (o, c) ∈ rem := by
          rw [← hgl]
          exact List.getLast_mem hne
        have hsplit : rem.dropLast ++ [(o, c)] = rem := by
          rw [← hgl]
          exact List.dropLast_append_getLast hne
        have hkeys : (rem.dropLast.map Prod.fst) ++ [o] = rem.map Prod.fst := by
          conv_rhs => rw [← hsplit]
          rw [List.map_append]
          rfl
        have honotin : o ∉ rem.dropLast.map Prod.fst := by
          rw [← hkeys] at hnd
          have h3 := (List.nodup_append.mp hnd).2.2
          intro hx
          exact h3 hx (by simp)
        refine ih edges rem.dropLast _ acc ?_ ?_ ?_ ?_
        · rw [List.length_dropLast]
          have : 0 < rem.length := List.length_pos.mpr hne
          omega
        · intro p2 hp2
          exact hOut p2 ((List.dropLast_sublist rem).subset hp2)
        · exact List.Nodup.sublist
            (List.Sublist.map _ (List.dropLast_sublist rem)) hnd
        · intro o2 c2 a2 heq
          injection heq with h3
          rw [Prod.mk.injEq] at h3
          obtain ⟨h4, h5⟩ := h3
          subst h4
          refine ⟨hOut (o, c) hglmem, ?_⟩
          intro p2 hp2
          intro hx
          exact honotin (hx ▸ List.mem_map_of_mem Prod.fst hp2)
    | some (origin, cur, added) =>
      match edges, hn, hOut, hst with
      | [], hn, hOut, hst =>
        obtain ⟨⟨ev, hmem, _⟩, _⟩ := hst origin cur added rfl
        simp at hmem
      | e :: es, hn, hOut, hst =>
        obtain ⟨hEP, hNe⟩ := hst origin cur added rfl
        have hklt : findFirstGeIdx (e :: es) (bd (lastC cur)) < (e :: es).length :=
          findFirstGeIdx_lt _ _ (by simp)
        have herase : ((e :: es).eraseIdx
            (findFirstGeIdx (e :: es) (bd (lastC cur)))).length
            = (e :: es).length - 1 := by
          rw [List.length_eraseIdx, if_pos hklt]
        have hgetd : (e :: es).getD (findFirstGeIdx (e :: es) (bd (lastC cur))) e
            = (e :: es)[findFirstGeIdx (e :: es) (bd (lastC cur))] :=
          List.getD_eq_getElem _ _ hklt
        by_cases hkind :
            ((e :: es).getD (findFirstGeIdx (e :: es) (bd (lastC cur))) e).kind = true
        · rw [attachLoop_vertex ls bd e es rem origin cur added acc _ rfl hkind]
          have hsurvive : ∀ j2, HasEndpointEvent (e :: es) j2 →
              HasEndpointEvent ((e :: es).eraseIdx
                (findFirstGeIdx (e :: es) (bd (lastC cur)))) j2 := by
            intro j2 hj2
            refine hasEndpoint_eraseIdx hj2 hklt ?_
            rintro ⟨hf, _⟩
            rw [← hgetd] at hf
            rw [hkind] at hf
            simp at hf
          refine ih _ rem _ acc ?_ ?_ hnd ?_
          · rw [herase]
            simp only [List.length_cons] at hn ⊢
            omega
          · intro p2 hp2
            exact hsurvive p2.1 (hOut p2 hp2)
          · intro o2 c2 a2 heq
            injection heq with h3
            rw [Prod.mk.injEq] at h3
            obtain ⟨h4, h5⟩ := h3
            subst h4
            exact ⟨hsurvive origin hEP, hNe⟩
        · have hkf : ((e :: es).getD
              (findFirstGeIdx (e :: es) (bd (lastC cur))) e).kind = false := by
            simpa using hkind
          by_cases hid :
              evId ((e :: es).getD (findFirstGeIdx (e :: es) (bd (lastC cur))) e)
                = origin
          · rw [attachLoop_close ls bd e es rem origin cur added acc _ rfl hkf hid]
            refine ih _ rem _ _ ?_ ?_ hnd ?_
            · rw [herase]
              simp only [List.length_cons] at hn ⊢
              omega
            · intro p2 hp2
              refine hasEndpoint_eraseIdx (hOut p2 hp2) hklt ?_
              rintro ⟨hf, t, q, hdata⟩
              rw [← hgetd] at hdata
              have hevid : evId ((e :: es).getD
                  (findFirstGeIdx (e :: es) (bd (lastC cur))) e) = p2.1 := by
                unfold evId
                rw [hdata]
              exact hNe p2 hp2 (by rw [← hevid, hid])
            · intro o2 c2 a2 heq
              exact absurd heq (by simp)
          · by_cases hmem :
                evId ((e :: es).getD (findFirstGeIdx (e :: es) (bd (lastC cur))) e)
                  ∈ added
            · rw [attachLoop_incons ls bd e es rem origin cur added acc _ rfl hkf
                hid hmem]
              simp
            · rw [attachLoop_append ls bd e es rem origin cur added acc _ rfl hkf
                hid hmem]
              refine ih _ _ _ acc ?_ ?_ ?_ ?_
              · rw [herase]
                have hfle := List.length_filter_le (fun p => p.1 != evId
                  ((e :: es).getD (findFirstGeIdx (e :: es) (bd (lastC cur))) e)) rem
                simp only [List.length_cons] at hn ⊢
                omega
              · intro p2 hp2
                have hp2rem := (List.mem_filter.mp hp2).1
                have hp2ne : p2.1 ≠ evId ((e :: es).getD
                    (findFirstGeIdx (e :: es) (bd (lastC cur))) e) := by
                  have := (List.mem_filter.mp hp2).2
                  simpa using this
                refine hasEndpoint_eraseIdx (hOut p2 hp2rem) hklt ?_
                rintro ⟨hf, t, q, hdata⟩
                rw [← hgetd] at hdata
                have hevid : evId ((e :: es).getD
                    (findFirstGeIdx (e :: es) (bd (lastC cur))) e) = p2.1 := by
                  unfold evId
                  rw [hdata]
                exact hp2ne hevid.symm
              · exact List.Nodup.sublist
                  (List.Sublist.map _ (List.filter_sublist rem)) hnd
              · intro o2 c2 a2 heq
                injection heq with h3
                rw [Prod.mk.injEq] at h3
                obtain ⟨h4, h5⟩ := h3
                subst h4
                constructor
                · refine hasEndpoint_eraseIdx hEP hklt ?_
                  rintro ⟨hf, t, q, hdata⟩
                  rw [← hgetd] at hdata
                  have hevid : evId ((e :: es).getD
                      (findFirstGeIdx (e :: es) (bd (lastC cur))) e) = origin := by
                    unfold evId
                    rw [hdata]
                  exact hid hevid
                · intro p2 hp2
                  exact hNe p2 (List.mem_filter.mp hp2).1

theorem attachLines_ne_exhausted (bd : Point → ℚ) (interp : ℚ → Point)
    (isValid : Frag → Bool) (bcs : List Point) (mls : List (List Frag)) :
    attachLinesToBoundary bd interp isValid bcs mls ≠ .exhausted := by
  have hmain : attachLoop mls.flatten bd
      ((insertMids interp none (sortEvents (buildEvents bd mls.flatten bcs))).filter
        filter_last) mls.flatten.enum none [] ≠ .exhausted := by
    apply attachLoop_no_exhaust mls.flatten bd
      (((insertMids interp none (sortEvents (buildEvents bd mls.flatten bcs))).filter
        filter_last).length + mls.flatten.enum.length)
    · exact le_refl _
    · intro p hp
      obtain ⟨j, f⟩ := p
      exact firstEvent_mem_pipeline bd interp mls.flatten bcs j f hp
    · rw [List.enum_map_fst]
      exact List.nodup_range _
    · intro o c a heq
      exact absurd heq (by simp)
  simp only [attachLinesToBoundary]
  cases hcase : attachLoop mls.flatten bd
      ((insertMids interp none (sortEvents (buildEvents bd mls.flatten bcs))).filter
        filter_last) mls.flatten.enum none [] with
  | ok processed => simp
  | inconsistency j a => simp
  | exhausted => exact absurd hcase hmain

/-- Claim C10: the traversal terminates without exhausting the event list —
the whole of `_attach_lines_to_boundary` never reaches the empty-list
`IndexError` of `_find_first_ge` (the origin fragment's `first` event stays
in the searchable set until its path closes); `_find_first_ge` applied to a
non-empty list always returns an event; each inner iteration removes exactly
one event from the searchable set; and each completed path removes at least
one fragment from the registry (`popitem`). -/
theorem c10_termination :
    (∀ (bd : Point → ℚ) (interp : ℚ → Point) (isValid : Frag → Bool)
        (bcs : List Point) (mls : List (List Frag)),
      attachLinesToBoundary bd interp isValid bcs mls ≠ .exhausted) ∧
    (∀ (evs : List Event) (x : ℚ), evs ≠ [] → (findFirstGe evs x).isSome = true) ∧
    (∀ (evs : List Event) (x : ℚ), evs ≠ [] →
      (evs.eraseIdx (findFirstGeIdx evs x)).length + 1 = evs.length) ∧
    (∀ (rem : List (Nat × Frag)) (p : Nat × Frag), rem.getLast? = some p →
      rem.dropLast.length + 1 = rem.length) := by
  refine ⟨attachLines_ne_exhausted, ?_, ?_, ?_⟩
  · intro evs x h
    unfold findFirstGe
    cases hf : evs.find? (fun v => decide (x ≤ v.distance)) with
    | some v => rfl
    | none =>
      cases evs with
      | nil => exact absurd rfl h
      | cons a t => rfl
  · intro evs x h
    rw [List.length_eraseIdx, if_pos (findFirstGeIdx_lt evs x h)]
    have : 0 < evs.length := List.length_pos.mpr h
    omega
  · intro rem p h
    have hne : rem ≠ [] := by
      intro hnil
      rw [hnil] at h
      simp at h
    rw [List.length_dropLast]
    have : 0 < rem.length := List.length_pos.mpr hne
    omega

theorem c10_termination_witness :
    attachLinesToBoundary (fun _ => (0 : ℚ)) (fun _ => ((0 : ℚ), (0 : ℚ)))
        (fun _ => true) [] [] ≠ .exhausted ∧
    (findFirstGe [dfltEv] 0).isSome = true ∧
    (([dfltEv].eraseIdx (findFirstGeIdx [dfltEv] 0)).length + 1 = 1) ∧
    ([((0 : Nat), ([] : Frag))].dropLast.length + 1 = 1) := by
  refine ⟨c10_termination.1 _ _ _ _ _, c10_termination.2.1 [dfltEv] 0 (by decide),
    c10_termination.2.2.1 [dfltEv] 0 (by decide),
    c10_termination.2.2.2 [((0 : Nat), ([] : Frag))] (0, []) (by decide)⟩

/-- Claim C5: the `RuntimeError` (a line string being re-added) is raised if
and only if a fragment id is appended a second time within the same path:
whenever the traversal returns the `inconsistency` outcome the offending id
was already in the path's `added_linestring` set, and a step that appends a
still-unvisited fragment never raises while a step whose fragment id is
already in `added_linestring` always raises. -/
theorem c5_inconsistency :
    (∀ (ls : List Frag) (bd : Point → ℚ) (edges : List Event)
        (rem : List (Nat × Frag)) (st : Option (Nat × Frag × List Nat))
        (acc : List Frag) (j : Nat) (added2 : List Nat),
      attachLoop ls bd edges rem st acc = .inconsistency j added2 →
      j ∈ added2) ∧
    (∀ (ls : List Frag) (bd : Point → ℚ) (e : Event) (es : List Event)
        (rem : List (Nat × Frag)) (origin : Nat) (cur : Frag) (added : List Nat)
        (acc : List Frag) (ev : Event),
      (e :: es).getD (findFirstGeIdx (e :: es) (bd (lastC cur))) e = ev →
      ev.kind = false → evId ev ≠ origin → evId ev ∈ added →
      attachLoop ls bd (e :: es) rem (some (origin, cur, added)) acc
        = .inconsistency (evId ev) added) ∧
    (∀ (ls : List Frag) (bd : Point → ℚ) (e : Event) (es : List Event)
        (rem : List (Nat × Frag)) (origin : Nat) (cur : Frag) (added : List Nat)
        (acc : List Frag) (ev : Event),
      (e :: es).getD (findFirstGeIdx (e :: es) (bd (lastC cur))) e = ev →
      ev.kind = false → evId ev ≠ origin → evId ev ∉ added →
      attachLoop ls bd (e :: es) rem (some (origin, cur, added)) acc
        = attachLoop ls bd
            ((e :: es).eraseIdx (findFirstGeIdx (e :: es) (bd (lastC cur))))
            (rem.filter (fun p => p.1 != evId ev))
            (some (origin, cur ++ ls.getD (evId ev) [], evId ev :: added)) acc) := by
  refine ⟨?_, ?_, ?_⟩
  · intro ls bd edges rem st acc j a2 h
    exact attachLoop_inconsistency_mem ls bd (edges.length + rem.length)
      edges rem st acc j a2 (le_refl _) h
  · intro ls bd e es rem origin cur added acc ev hev hkf hid hmem
    exact attachLoop_incons ls bd e es rem origin cur added acc ev hev hkf hid hmem
  · intro ls bd e es rem origin cur added acc ev hev hkf hid hnot
    exact attachLoop_append ls bd e es rem origin cur added acc ev hev hkf hid hnot

theorem c5_inconsistency_witness :
    attachLoop [] (fun _ => (0 : ℚ)) [⟨0, false, .seg 1 true (5, 5)⟩] []
        (some (0, [((5 : ℚ), (5 : ℚ))], [1])) []
      = .inconsistency 1 [1] ∧ (1 : Nat) ∈ [1] := by
  have h := c5_inconsistency.2.1 [] (fun _ => (0 : ℚ))
    ⟨0, false, .seg 1 true (5, 5)⟩ [] [] 0 [((5 : ℚ), (5 : ℚ))] [1] []
    ⟨0, false, .seg 1 true (5, 5)⟩ (by decide) (by decide) (by decide) (by decide)
  exact ⟨h, c5_inconsistency.1 [] (fun _ => (0 : ℚ))
    [⟨0, false, .seg 1 true (5, 5)⟩] [] (some (0, [((5 : ℚ), (5 : ℚ))], [1])) []
    1 [1] h⟩

end Cartopy
